import Mathlib

/-!
The version store of `git.c`.

A shallow embedding of the bounded version history implemented in `src/git.c`
(`initializeVCS`, `computeDelta`, `createVersionNode`, `addVersion`,
`findVersionNode`, `reconstructVersion`) together with the properties of the
store that its specification states.

Modelling conventions.

* A C string is the list of its characters before the terminating NUL.
* The doubly linked chain `head -> ... -> tail` is the list of its nodes from
  `head` to `tail`; `head` is the first element, `tail` the last one, and the
  `next`/`prev` links are the list order.
* `int` fields are integers.  Executions that overflow an `int` have no defined
  meaning in C and are not described by the model.
* `computeDelta`, `addVersion`, `findVersionNode` and `reconstructVersion` are
  functions of the texts and of the chain.  The `MAX_CONTENT`-byte block that
  `computeDelta` writes to is modelled apart, by `computeDeltaChecked`, which has
  no result where `sprintf` would run past the end of the block.
* The read operations are modelled a second time on a memory of blocks with
  addresses (`findVersionNodeMem`, `reconstructVersionMem`, `displayVersionMem`,
  `displayCurrentVersionMem`, `displayAllLogsMem`), where a write to a block is
  explicit; `Represents` relates a memory to the store it holds.
* A returned pointer is an `Option`; `none` is `NULL`.  A failed `malloc` ends
  the process (`exit(1)`) and is not modelled.
-/

namespace VCSModel

/-- C strings: the characters before the terminator. -/
abbrev Str := List Char

/-- The constant `MAX_VERSIONS` (line 7). -/
def MAX_VERSIONS : Int := 10

/-- The struct `VersionNode` (lines 10-16) without its two links. -/
structure VersionNode where
  version_id : Int
  delta : Str
  change_log : Str
deriving DecidableEq

/-- The struct `VCS` (lines 19-26); `nodes` is the chain from `head` to `tail`. -/
structure VCS where
  nodes : List VersionNode
  current_content : Str
  version_count : Int
  next_version_id : Int
  max_versions : Int
deriving DecidableEq

/-- The literal `"MODIFIED"` searched for by `reconstructVersion` (line 162). -/
def MODIFIED : Str := "MODIFIED".toList

/-- The literal `"NO_CHANGE"` written by `computeDelta` (line 67). -/
def NO_CHANGE : Str := "NO_CHANGE".toList

/-- The function `initializeVCS` (lines 41-54): every field is set, whatever
`max_versions` is, and the pointer returned is never `NULL`. -/
def initializeVCS (max_versions : Int) : Option VCS :=
  some
    { nodes := []
      current_content := []
      version_count := 0
      next_version_id := 1
      max_versions := max_versions }

/-- The text produced by `computeDelta` (lines 57-70): `strcmp` decides between
the formatted `"MODIFIED: %s -> %s"` and the literal `"NO_CHANGE"`.  The buffer
that receives the text is modelled by `computeDeltaChecked`. -/
def computeDelta (old_content new_content : Str) : Str :=
  if old_content ≠ new_content then
    "MODIFIED: ".toList ++ old_content ++ " -> ".toList ++ new_content
  else
    NO_CHANGE

/-- The function `createVersionNode` (lines 73-98): copies of the id, the delta
and the log; both links start out `NULL`. -/
def createVersionNode (id : Int) (delta log : Str) : VersionNode :=
  { version_id := id, delta := delta, change_log := log }

/-- The node built at the start of `addVersion` (lines 103-105); its
`version_id` is the one printed at line 136. -/
def newVersionNode (vcs : VCS) (new_content log : Str) : VersionNode :=
  createVersionNode vcs.next_version_id (computeDelta vcs.current_content new_content) log

/-- The function `addVersion` (lines 101-137).  The node is linked after `tail`
(or becomes `head` and `tail` of an empty chain), both counters are incremented,
`current_content` is overwritten, and when `version_count` exceeds
`max_versions` the node at `head` is unlinked and `version_count` decremented. -/
def addVersion (vcs : VCS) (new_content log : Str) : VCS :=
  let new_node := newVersionNode vcs new_content log
  let linked : List VersionNode :=
    match vcs.nodes.getLast? with
    | none => [new_node]
    | some _ => vcs.nodes ++ [new_node]
  let version_count := vcs.version_count + 1
  let next_version_id := vcs.next_version_id + 1
  if version_count > vcs.max_versions then
    { nodes := linked.drop 1
      current_content := new_content
      version_count := version_count - 1
      next_version_id := next_version_id
      max_versions := vcs.max_versions }
  else
    { nodes := linked
      current_content := new_content
      version_count := version_count
      next_version_id := next_version_id
      max_versions := vcs.max_versions }

/-- The loop of `findVersionNode` (lines 141-148) over the chain that starts at
`temp`. -/
def findVersionLoop (version_id : Int) : List VersionNode → Option VersionNode
  | [] => none
  | temp :: rest =>
    if temp.version_id = version_id then some temp
    else findVersionLoop version_id rest

/-- The function `findVersionNode` (lines 140-149). -/
def findVersionNode (vcs : VCS) (version_id : Int) : Option VersionNode :=
  findVersionLoop version_id vcs.nodes

/-- The library function `strstr`: the suffix that starts at the first
occurrence of `needle`, or `none`. -/
def strstr : Str → Str → Option Str
  | [], needle => if needle.isPrefixOf [] then some [] else none
  | c :: rest, needle =>
    if needle.isPrefixOf (c :: rest) then some (c :: rest)
    else strstr rest needle

/-- The library function `strchr` for a character other than NUL: the suffix
that starts at the first occurrence of `c`, or `none`. -/
def strchr : Str → Char → Option Str
  | [], _ => none
  | x :: rest, c =>
    if x = c then some (x :: rest)
    else strchr rest c

/-- The body of the loop of `reconstructVersion` applied to one node (lines
162-168): the new value of the buffer `reconstructed`.  `start + 2` is the
suffix two characters after the first `>`. -/
def applyDelta (delta reconstructed : Str) : Str :=
  match strstr delta MODIFIED with
  | none => reconstructed
  | some _ =>
    match strchr delta '>' with
    | none => reconstructed
    | some start => start.drop 2

/-- The loop of `reconstructVersion` (lines 161-171) over the chain that starts
at `temp`, with the current value of the buffer. -/
def reconstructLoop (version_id : Int) : List VersionNode → Str → Str
  | [], reconstructed => reconstructed
  | temp :: rest, reconstructed =>
    if temp.version_id ≤ version_id then
      let reconstructed := applyDelta temp.delta reconstructed
      if temp.version_id = version_id then reconstructed
      else reconstructLoop version_id rest reconstructed
    else reconstructed

/-- The function `reconstructVersion` (lines 152-173): `NULL` when the id is not
retained, else the buffer after the walk from `head`. -/
def reconstructVersion (vcs : VCS) (version_id : Int) : Option Str :=
  match findVersionNode vcs version_id with
  | none => none
  | some _ => some (reconstructLoop version_id vcs.nodes [])

/-- The set-up in `main` (lines 281-290): the store is initialised, then
`current_content` receives the initial content and `version_count` is set to
zero again. -/
def mainSetup (max_versions : Int) (initial_content : Str) : Option VCS :=
  match initializeVCS max_versions with
  | none => none
  | some vcs => some { vcs with current_content := initial_content, version_count := 0 }

/-- A sequence of `addVersion` calls (menu choice 1, line 238), each with its
content and its log, applied in order. -/
def runAdds (vcs : VCS) : List (Str × Str) → VCS
  | [] => vcs
  | op :: rest => runAdds (addVersion vcs op.1 op.2) rest

/-- The store after the set-up of `main` followed by a sequence of `addVersion`
calls. -/
def buildStore (max_versions : Int) (initial_content : Str) (ops : List (Str × Str)) :
    Option VCS :=
  match mainSetup max_versions initial_content with
  | none => none
  | some vcs => some (runAdds vcs ops)

/-- The ids given to the nodes created by a sequence of `addVersion` calls, in
call order. -/
def issuedIds (vcs : VCS) : List (Str × Str) → List Int
  | [] => []
  | op :: rest =>
    (newVersionNode vcs op.1 op.2).version_id :: issuedIds (addVersion vcs op.1 op.2) rest

/-- The test of line 123 as seen from the state before the call: the call
unlinks the node at `head`. -/
def evicts (vcs : VCS) : Prop := vcs.version_count + 1 > vcs.max_versions

instance (vcs : VCS) : Decidable (evicts vcs) := by unfold evicts; infer_instance

/-- The smallest element of a list of ids. -/
def smallestId : List Int → Option Int
  | [] => none
  | x :: rest =>
    match smallestId rest with
    | none => some x
    | some m => some (min x m)

/-- The second-smallest element of a list of ids: the smallest one once an
occurrence of the smallest has been taken out. -/
def secondSmallestId (ids : List Int) : Option Int :=
  match smallestId ids with
  | none => none
  | some m => smallestId (ids.erase m)

/-- The test of line 162 on one node: its delta contains `MODIFIED`. -/
def isModified (node : VersionNode) : Bool := (strstr node.delta MODIFIED).isSome

/-- The content held in `current_content` after a sequence of `addVersion`
calls that started with `prev` there (line 120). -/
def lastContent (prev : Str) : List (Str × Str) → Str
  | [] => prev
  | op :: rest => lastContent op.1 rest

/-- The nodes created by a sequence of `addVersion` calls (lines 103-105 at each
call) when the first call finds `id` in `next_version_id` and `prev` in
`current_content`. -/
def historyFrom (id : Int) (prev : Str) : List (Str × Str) → List VersionNode
  | [] => []
  | op :: rest => createVersionNode id (computeDelta prev op.1) op.2 :: historyFrom (id + 1) op.1 rest

/-- What a display function prints (the data of its `printf` calls). -/
inductive Printed where
  | versionContent (version_id : Int) (content : Str)
  | notFound (version_id : Int)
  | currentVersion (content : Str) (total : Int)
  | noVersions
  | history (entries : List (Int × Str × Str))
deriving DecidableEq

/-- The function `displayVersion` (lines 193-203). -/
def displayVersion (vcs : VCS) (version_id : Int) : Printed :=
  match reconstructVersion vcs version_id with
  | none => Printed.notFound version_id
  | some content => Printed.versionContent version_id content

/-- The function `displayCurrentVersion` (lines 206-211). -/
def displayCurrentVersion (vcs : VCS) : Printed :=
  Printed.currentVersion vcs.current_content vcs.version_count

/-- The function `displayAllLogs` (lines 176-190): id, log and delta of each
node from `head` on, unless `version_count` is zero. -/
def displayAllLogs (vcs : VCS) : Printed :=
  if vcs.version_count = 0 then Printed.noVersions
  else Printed.history (vcs.nodes.map (fun temp => (temp.version_id, temp.change_log, temp.delta)))

/-- The constant `MAX_CONTENT` (line 5). -/
def MAX_CONTENT : Nat := 1024

/-- The function `computeDelta` with its buffer (lines 58-69): the text and its
terminator go into the `MAX_CONTENT` bytes of `malloc(MAX_CONTENT)`; `none` when
they do not fit, where `sprintf` writes past the end of the block and the
behaviour is undefined.  `computeDelta` is the text that is formatted. -/
def computeDeltaChecked (old_content new_content : Str) : Option Str :=
  if (computeDelta old_content new_content).length + 1 ≤ MAX_CONTENT then
    some (computeDelta old_content new_content)
  else none

/-- What a block of memory holds: a `VersionNode` with its two links (lines
10-16), the `VCS` struct with its two pointers (lines 19-26), or a character
buffer with its size in bytes. -/
inductive Cell where
  | node (version_id : Int) (delta change_log : Str) (next prev : Option Nat)
  | store (head tail : Option Nat) (current_content : Str)
      (version_count next_version_id max_versions : Int)
  | buffer (size : Nat) (text : Str)
deriving DecidableEq

/-- Memory: the block at each address, `none` where no block is live.  A
pointer is an address, `NULL` is `none`. -/
abbrev Memory := Nat → Option Cell

/-- Memory after the block at `p` has been replaced (`none`: freed). -/
def Memory.write (m : Memory) (p : Nat) (c : Option Cell) : Memory :=
  fun a => if a = p then c else m a

/-- The library function `strcpy` into the buffer at `dst`: `none` when `dst`
is no buffer or when the text and its terminator exceed its size (undefined
behaviour). -/
def strcpyMem (m : Memory) (dst : Nat) (src : Str) : Option Memory :=
  match m dst with
  | some (Cell.buffer size _) =>
    if src.length + 1 ≤ size then some (m.write dst (some (Cell.buffer size src))) else none
  | _ => none

/-- The loop of `findVersionNode` (lines 142-147) on memory, `temp` being
followed through `next`.  The outer `none`: the fuel is used up or `temp`
points to no node. -/
def findVersionLoopMem (m : Memory) (version_id : Int) : Nat → Option Nat → Option (Option Nat)
  | 0, _ => none
  | _ + 1, none => some none
  | fuel + 1, some temp =>
    match m temp with
    | some (Cell.node vid _ _ next _) =>
      if vid = version_id then some (some temp)
      else findVersionLoopMem m version_id fuel next
    | _ => none

/-- The function `findVersionNode` (lines 140-149) on memory: it reads the
struct at `vcs` and the nodes, and writes nothing. -/
def findVersionNodeMem (m : Memory) (vcs : Nat) (version_id : Int) (fuel : Nat) :
    Option (Option Nat) :=
  match m vcs with
  | some (Cell.store head _ _ _ _ _) => findVersionLoopMem m version_id fuel head
  | _ => none

/-- The body of the loop of `reconstructVersion` applied to one node (lines
162-168) on memory: the only write is the `strcpy` into the buffer
`reconstructed` (line 166). -/
def applyDeltaMem (m : Memory) (reconstructed : Nat) (delta : Str) : Option Memory :=
  match strstr delta MODIFIED with
  | none => some m
  | some _ =>
    match strchr delta '>' with
    | none => some m
    | some start => strcpyMem m reconstructed (start.drop 2)

/-- The loop of `reconstructVersion` (lines 161-171) on memory; the id and the
link of `temp` are read after the body of the loop (lines 169-170). -/
def reconstructLoopMem (version_id : Int) (reconstructed : Nat) :
    Nat → Memory → Option Nat → Option Memory
  | 0, _, _ => none
  | _ + 1, m, none => some m
  | fuel + 1, m, some temp =>
    match m temp with
    | some (Cell.node vid delta _ _ _) =>
      if vid ≤ version_id then
        match applyDeltaMem m reconstructed delta with
        | none => none
        | some m1 =>
          match m1 temp with
          | some (Cell.node vid1 _ _ next1 _) =>
            if vid1 = version_id then some m1
            else reconstructLoopMem version_id reconstructed fuel m1 next1
          | _ => none
      else some m
    | _ => none

/-- The function `reconstructVersion` (lines 152-173) on memory.  `fresh` is the
block that `malloc(MAX_CONTENT)` returns (line 158), a block that was not live;
it receives the empty string (line 159) and is returned.  The result is the
pointer returned and the memory afterwards. -/
def reconstructVersionMem (m : Memory) (fresh vcs : Nat) (version_id : Int) (fuel : Nat) :
    Option (Option Nat × Memory) :=
  match findVersionNodeMem m vcs version_id fuel with
  | none => none
  | some none => some (none, m)
  | some (some _) =>
    match strcpyMem (m.write fresh (some (Cell.buffer MAX_CONTENT []))) fresh [] with
    | none => none
    | some m1 =>
      match m1 vcs with
      | some (Cell.store head _ _ _ _ _) =>
        match reconstructLoopMem version_id fresh fuel m1 head with
        | none => none
        | some m2 => some (some fresh, m2)
      | _ => none

/-- The function `displayVersion` (lines 193-203) on memory: what is printed and
the memory afterwards, the buffer being freed at line 202. -/
def displayVersionMem (m : Memory) (fresh vcs : Nat) (version_id : Int) (fuel : Nat) :
    Option (Printed × Memory) :=
  match reconstructVersionMem m fresh vcs version_id fuel with
  | none => none
  | some (none, m1) => some (Printed.notFound version_id, m1)
  | some (some content, m1) =>
    match m1 content with
    | some (Cell.buffer _ text) =>
      some (Printed.versionContent version_id text, m1.write content none)
    | _ => none

/-- The function `displayCurrentVersion` (lines 206-211) on memory: it reads the
struct at `vcs` and writes nothing. -/
def displayCurrentVersionMem (m : Memory) (vcs : Nat) : Option Printed :=
  match m vcs with
  | some (Cell.store _ _ current_content version_count _ _) =>
    some (Printed.currentVersion current_content version_count)
  | _ => none

/-- The loop of `displayAllLogs` (lines 183-188) on memory. -/
def displayLogsLoopMem (m : Memory) : Nat → Option Nat → Option (List (Int × Str × Str))
  | 0, _ => none
  | _ + 1, none => some []
  | fuel + 1, some temp =>
    match m temp with
    | some (Cell.node vid delta log next _) =>
      match displayLogsLoopMem m fuel next with
      | none => none
      | some entries => some ((vid, log, delta) :: entries)
    | _ => none

/-- The function `displayAllLogs` (lines 176-190) on memory: it reads the struct
at `vcs` and the nodes, and writes nothing. -/
def displayAllLogsMem (m : Memory) (vcs : Nat) (fuel : Nat) : Option Printed :=
  match m vcs with
  | some (Cell.store head _ _ version_count _ _) =>
    if version_count = 0 then some Printed.noVersions
    else
      match displayLogsLoopMem m fuel head with
      | none => none
      | some entries => some (Printed.history entries)
  | _ => none

/-- The node a pointer points to, without its links. -/
def nodeAt (m : Memory) : Option Nat → Option VersionNode
  | none => none
  | some p =>
    match m p with
    | some (Cell.node vid delta log _ _) => some ⟨vid, delta, log⟩
    | _ => none

/-- The text of the buffer a pointer points to. -/
def textAt (m : Memory) : Option Nat → Option Str
  | none => none
  | some p =>
    match m p with
    | some (Cell.buffer _ text) => some text
    | _ => none

/-- The memory holds the nodes `ns`, linked through `next` in this order, from
the pointer `p` on, and the last link is `NULL`. -/
def Chain (m : Memory) : Option Nat → List VersionNode → Prop
  | none, [] => True
  | some p, n :: rest =>
    ∃ next prev, m p = some (Cell.node n.version_id n.delta n.change_log next prev) ∧
      Chain m next rest
  | none, _ :: _ => False
  | some _, [] => False

/-- The memory holds the store `v` at the address `vcs`: the struct with the
fields of `v`, and the chain of its nodes from `head` on. -/
def Represents (m : Memory) (vcs : Nat) (v : VCS) : Prop :=
  ∃ head tail, m vcs = some (Cell.store head tail v.current_content v.version_count
      v.next_version_id v.max_versions) ∧
    Chain m head v.nodes

/-- A store with one record, made by `addVersion("a", "l")` on an empty content
with capacity 3. -/
def sampleStore : VCS :=
  ⟨[⟨1, "MODIFIED:  -> a".toList, "l".toList⟩], "a".toList, 1, 2, 3⟩

/-- A memory that holds `sampleStore`: the struct at address 0, its node at
address 1, nothing else. -/
def sampleMemory : Memory := fun a =>
  if a = 0 then some (Cell.store (some 1) (some 1) "a".toList 1 2 3)
  else if a = 1 then some (Cell.node 1 "MODIFIED:  -> a".toList "l".toList none none)
  else none

/-- The representation invariant of a store with a positive capacity. -/
structure StoreInv (v : VCS) : Prop where
  cap_pos : 1 ≤ v.max_versions
  count_eq : v.version_count = v.nodes.length
  count_le : v.version_count ≤ v.max_versions
  ids_sorted : (v.nodes.map (·.version_id)).Pairwise (· < ·)
  ids_lt : ∀ n ∈ v.nodes, n.version_id < v.next_version_id

/-! Basic facts about `addVersion`. -/

theorem mainSetup_eq (cap : Int) (seed : Str) :
    mainSetup cap seed = some ⟨[], seed, 0, 1, cap⟩ := rfl

theorem buildStore_eq (cap : Int) (seed : Str) (ops : List (Str × Str)) :
    buildStore cap seed ops = some (runAdds ⟨[], seed, 0, 1, cap⟩ ops) := rfl

theorem linked_eq (ns : List VersionNode) (n : VersionNode) :
    (match ns.getLast? with
      | none => [n]
      | some _ => ns ++ [n]) = ns ++ [n] := by
  cases h : ns.getLast? with
  | none =>
    have : ns = [] := List.getLast?_eq_none_iff.mp h
    simp [this]
  | some x => rfl

theorem addVersion_nodes (v : VCS) (c l : Str) :
    (addVersion v c l).nodes =
      if evicts v then (v.nodes ++ [newVersionNode v c l]).drop 1
      else v.nodes ++ [newVersionNode v c l] := by
  unfold addVersion evicts
  simp only [linked_eq]
  split <;> rfl

theorem addVersion_next (v : VCS) (c l : Str) :
    (addVersion v c l).next_version_id = v.next_version_id + 1 := by
  unfold addVersion
  simp only []
  split <;> rfl

theorem addVersion_max (v : VCS) (c l : Str) :
    (addVersion v c l).max_versions = v.max_versions := by
  unfold addVersion
  simp only []
  split <;> rfl

theorem addVersion_content (v : VCS) (c l : Str) :
    (addVersion v c l).current_content = c := by
  unfold addVersion
  simp only []
  split <;> rfl

theorem addVersion_count (v : VCS) (c l : Str) :
    (addVersion v c l).version_count =
      if evicts v then v.version_count else v.version_count + 1 := by
  unfold addVersion evicts
  simp only []
  split
  · simp
  · rfl

theorem runAdds_append (v : VCS) (ops : List (Str × Str)) (op : Str × Str) :
    runAdds v (ops ++ [op]) = addVersion (runAdds v ops) op.1 op.2 := by
  induction ops generalizing v with
  | nil => rfl
  | cons o rest ih => simp [runAdds, ih]

theorem runAdds_max (v : VCS) (ops : List (Str × Str)) :
    (runAdds v ops).max_versions = v.max_versions := by
  induction ops generalizing v with
  | nil => rfl
  | cons o rest ih => simp [runAdds, ih, addVersion_max]

theorem runAdds_next (v : VCS) (ops : List (Str × Str)) :
    (runAdds v ops).next_version_id = v.next_version_id + ops.length := by
  induction ops generalizing v with
  | nil => simp [runAdds]
  | cons o rest ih =>
    simp only [runAdds, ih, addVersion_next, List.length_cons]
    push_cast
    ring

/-! The invariant holds in every store built through the interface. -/

theorem storeInv_init (cap : Int) (seed : Str) (hcap : 1 ≤ cap) :
    StoreInv ⟨[], seed, 0, 1, cap⟩ where
  cap_pos := hcap
  count_eq := by simp
  count_le := by simp; omega
  ids_sorted := by simp
  ids_lt := by simp

theorem storeInv_addVersion (v : VCS) (c l : Str) (h : StoreInv v) :
    StoreInv (addVersion v c l) := by
  have hcap := h.cap_pos
  have hce := h.count_eq
  have hcl := h.count_le
  have hnew : (newVersionNode v c l).version_id = v.next_version_id := rfl
  have hsorted : ((v.nodes ++ [newVersionNode v c l]).map (·.version_id)).Pairwise (· < ·) := by
    rw [List.map_append, List.pairwise_append]
    refine ⟨h.ids_sorted, by simp, ?_⟩
    intro a ha b hb
    simp only [List.map_cons, List.map_nil, List.mem_singleton] at hb
    obtain ⟨n, hn, rfl⟩ := List.mem_map.mp ha
    rw [hb, hnew]
    exact h.ids_lt n hn
  have hlt : ∀ n ∈ v.nodes ++ [newVersionNode v c l], n.version_id < v.next_version_id + 1 := by
    intro n hn
    rcases List.mem_append.mp hn with hn | hn
    · have := h.ids_lt n hn
      omega
    · simp only [List.mem_singleton] at hn
      rw [hn, hnew]
      omega
  constructor
  · rw [addVersion_max]; exact hcap
  · rw [addVersion_count, addVersion_nodes]
    unfold evicts
    split
    · simp only [List.length_drop, List.length_append, List.length_singleton]
      omega
    · simp only [List.length_append, List.length_singleton]
      push_cast
      omega
  · rw [addVersion_count, addVersion_max]
    unfold evicts
    split <;> omega
  · rw [addVersion_nodes]
    split
    · rw [List.map_drop]
      exact hsorted.sublist (List.drop_sublist _ _)
    · exact hsorted
  · rw [addVersion_nodes, addVersion_next]
    split
    · intro n hn
      exact hlt n (List.mem_of_mem_drop hn)
    · exact hlt

theorem storeInv_runAdds (v : VCS) (ops : List (Str × Str)) (h : StoreInv v) :
    StoreInv (runAdds v ops) := by
  induction ops generalizing v with
  | nil => exact h
  | cons o rest ih => exact ih _ (storeInv_addVersion v o.1 o.2 h)

theorem storeInv_of_mainSetup (cap : Int) (seed : Str) (v0 : VCS) (ops : List (Str × Str))
    (h0 : mainSetup cap seed = some v0) (hcap : 1 ≤ cap) : StoreInv (runAdds v0 ops) := by
  rw [mainSetup_eq] at h0
  cases h0
  exact storeInv_runAdds _ ops (storeInv_init cap seed hcap)

theorem issuedIds_eq (v : VCS) (ops : List (Str × Str)) :
    issuedIds v ops = (List.range ops.length).map (fun (k : Nat) => v.next_version_id + (k : Int)) := by
  induction ops generalizing v with
  | nil => rfl
  | cons o rest ih =>
    simp only [issuedIds, ih, addVersion_next, List.length_cons, List.range_succ_eq_map,
      List.map_cons, List.map_map]
    refine congrArg₂ _ ?_ ?_
    · simp [newVersionNode, createVersionNode]
    · apply List.map_congr_left
      intro k _
      simp only [Function.comp, Nat.cast_succ]
      ring

theorem findVersionLoop_eq_none (id : Int) (ns : List VersionNode)
    (h : ∀ n ∈ ns, n.version_id ≠ id) : findVersionLoop id ns = none := by
  induction ns with
  | nil => rfl
  | cons a rest ih =>
    have ha : a.version_id ≠ id := h a (List.mem_cons_self _ _)
    simp only [findVersionLoop, if_neg ha]
    exact ih (fun n hn => h n (List.mem_cons_of_mem _ hn))

theorem reconstructVersion_eq_none (v : VCS) (id : Int) (h : findVersionNode v id = none) :
    reconstructVersion v id = none := by
  unfold reconstructVersion
  rw [h]

theorem smallestId_sorted (x : Int) (rest : List Int) (h : (x :: rest).Pairwise (· < ·)) :
    smallestId (x :: rest) = some x := by
  induction rest generalizing x with
  | nil => rfl
  | cons y r ih =>
    have hy : (y :: r).Pairwise (· < ·) := (List.pairwise_cons.mp h).2
    have hxy : x < y := (List.pairwise_cons.mp h).1 y (List.mem_cons_self _ _)
    have hmin : min x y = x := min_eq_left (le_of_lt hxy)
    rw [smallestId, ih y hy]
    simp only [hmin]

theorem secondSmallestId_sorted (x y : Int) (rest : List Int)
    (h : (x :: y :: rest).Pairwise (· < ·)) : secondSmallestId (x :: y :: rest) = some y := by
  have hy : (y :: rest).Pairwise (· < ·) := (List.pairwise_cons.mp h).2
  unfold secondSmallestId
  rw [smallestId_sorted x (y :: rest) h]
  simp only [List.erase_cons_head]
  exact smallestId_sorted y rest hy

theorem modified_literal :
    "MODIFIED: ".toList = ['M', 'O', 'D', 'I', 'F', 'I', 'E', 'D', ':', ' '] := rfl

theorem computeDelta_of_ne (old new : Str) (h : old ≠ new) :
    computeDelta old new = "MODIFIED: ".toList ++ old ++ " -> ".toList ++ new := by
  unfold computeDelta
  rw [if_pos h]

theorem computeDelta_of_eq (old new : Str) (h : old = new) :
    computeDelta old new = NO_CHANGE := by
  unfold computeDelta
  rw [if_neg (not_not.mpr h)]

theorem strstr_modified_delta (old new : Str) :
    (strstr ("MODIFIED: ".toList ++ old ++ " -> ".toList ++ new) MODIFIED).isSome = true := by
  rw [modified_literal]
  simp [strstr, MODIFIED, List.isPrefixOf]

theorem strstr_no_change : strstr NO_CHANGE MODIFIED = none := by decide

theorem modified_delta_ne_no_change (old new : Str) :
    "MODIFIED: ".toList ++ old ++ " -> ".toList ++ new ≠ NO_CHANGE := by
  intro h
  have h2 := congrArg List.head? h
  rw [modified_literal] at h2
  simp [NO_CHANGE] at h2

/-! The claims. -/

/-- C1 (evaluation at the failing input): with capacity 2 and an empty initial
content, after `addVersion(">", "a")` and `addVersion("b", "c")` both records are
retained, record 2 carries the delta `MODIFIED: > -> b` (a modified descriptor
whose new content is `b`), and `reconstructVersion(2)` returns `-> b`, not
`b`: the first `>` of the delta lies in the old content. -/
theorem reconstructVersion_old_content_with_gt :
    buildStore 2 [] [(">".toList, "a".toList), ("b".toList, "c".toList)] =
      some
        { nodes := [⟨1, "MODIFIED:  -> >".toList, "a".toList⟩,
                    ⟨2, "MODIFIED: > -> b".toList, "c".toList⟩]
          current_content := "b".toList
          version_count := 2
          next_version_id := 3
          max_versions := 2 } ∧
    computeDelta ">".toList "b".toList = "MODIFIED: > -> b".toList ∧
    (buildStore 2 [] [(">".toList, "a".toList), ("b".toList, "c".toList)]).bind
      (fun v => reconstructVersion v 2) = some "-> b".toList ∧
    "-> b".toList ≠ "b".toList := by
  refine ⟨by decide, by decide, by decide, by decide⟩

/-- C2: in every store built from the set-up of `main` with a capacity of at
least one by any sequence of `addVersion` calls, the number of retained records
and the field `version_count` are at most `max_versions`, which is the capacity
given. -/
theorem retained_count_le_max_versions (cap : Int) (seed : Str) (v0 : VCS)
    (ops : List (Str × Str)) (h0 : mainSetup cap seed = some v0) (hcap : 1 ≤ cap) :
    ((runAdds v0 ops).nodes.length : Int) ≤ (runAdds v0 ops).max_versions ∧
    (runAdds v0 ops).version_count ≤ (runAdds v0 ops).max_versions ∧
    (runAdds v0 ops).max_versions = cap := by
  have hinv := storeInv_of_mainSetup cap seed v0 ops h0 hcap
  refine ⟨?_, hinv.count_le, ?_⟩
  · rw [← hinv.count_eq]; exact hinv.count_le
  · rw [runAdds_max]
    rw [mainSetup_eq] at h0
    cases h0
    rfl

/-- Witness of C2: capacity 1 and two calls. -/
theorem retained_count_le_max_versions_witness :
    ((runAdds ⟨[], [], 0, 1, 1⟩ [("a".toList, []), ("b".toList, [])]).nodes.length : Int) ≤
      (runAdds ⟨[], [], 0, 1, 1⟩ [("a".toList, []), ("b".toList, [])]).max_versions ∧
    (runAdds ⟨[], [], 0, 1, 1⟩ [("a".toList, []), ("b".toList, [])]).version_count ≤
      (runAdds ⟨[], [], 0, 1, 1⟩ [("a".toList, []), ("b".toList, [])]).max_versions ∧
    (runAdds ⟨[], [], 0, 1, 1⟩ [("a".toList, []), ("b".toList, [])]).max_versions = 1 :=
  retained_count_le_max_versions 1 [] ⟨[], [], 0, 1, 1⟩ [("a".toList, []), ("b".toList, [])]
    rfl (by decide)

/-- C3: in a store built from the set-up of `main` with a capacity of at least
one, an `addVersion` call creates a node whose id is `next_version_id` before
the call, that node is the tail afterwards, and `next_version_id` is one larger
afterwards; the ids given by the calls made so far are `1, 2, ..., n` in call
order, so the k-th call gets id k and no id is given twice. -/
theorem addVersion_issues_next_version_id (cap : Int) (seed : Str) (v0 : VCS)
    (ops : List (Str × Str)) (c l : Str) (h0 : mainSetup cap seed = some v0) (hcap : 1 ≤ cap) :
    (newVersionNode (runAdds v0 ops) c l).version_id = (runAdds v0 ops).next_version_id ∧
    (addVersion (runAdds v0 ops) c l).nodes.getLast? = some (newVersionNode (runAdds v0 ops) c l) ∧
    (addVersion (runAdds v0 ops) c l).next_version_id = (runAdds v0 ops).next_version_id + 1 ∧
    (runAdds v0 ops).next_version_id = (ops.length : Int) + 1 ∧
    issuedIds v0 ops = (List.range ops.length).map (fun (k : Nat) => (k : Int) + 1) ∧
    (issuedIds v0 ops).Nodup := by
  have hinv := storeInv_of_mainSetup cap seed v0 ops h0 hcap
  rw [mainSetup_eq] at h0
  cases h0
  have hids : issuedIds ⟨[], seed, 0, 1, cap⟩ ops =
      (List.range ops.length).map (fun (k : Nat) => (k : Int) + 1) := by
    rw [issuedIds_eq]
    apply List.map_congr_left
    intro k _
    simp only []
    ring
  refine ⟨rfl, ?_, addVersion_next _ _ _, ?_, hids, ?_⟩
  · rw [addVersion_nodes]
    split
    · rename_i hev
      have hne : (runAdds ⟨[], seed, 0, 1, cap⟩ ops).nodes ≠ [] := by
        intro hnil
        have h1 := hinv.count_eq
        have h2 := hinv.cap_pos
        unfold evicts at hev
        rw [hnil] at h1
        simp only [List.length_nil, Nat.cast_zero] at h1
        omega
      obtain ⟨x, xs, hx⟩ := List.exists_cons_of_ne_nil hne
      rw [hx]
      simp
    · simp
  · rw [runAdds_next]
    simp only []
    ring
  · rw [hids]
    refine (List.nodup_range _).map ?_
    intro a b hab
    simp only [add_left_inj, Nat.cast_inj] at hab
    exact hab

/-- Witness of C3: capacity 1, so that the second and third call evict. -/
theorem addVersion_issues_next_version_id_witness :
    (newVersionNode (runAdds ⟨[], [], 0, 1, 1⟩ [("a".toList, []), ("b".toList, [])])
        "c".toList []).version_id = 3 ∧
    issuedIds ⟨[], [], 0, 1, 1⟩ [("a".toList, []), ("b".toList, [])] = [1, 2] := by
  have h := addVersion_issues_next_version_id 1 [] ⟨[], [], 0, 1, 1⟩
    [("a".toList, []), ("b".toList, [])] "c".toList [] rfl (by decide)
  exact ⟨by rw [h.1, h.2.2.2.1]; rfl, by rw [h.2.2.2.2.1]; rfl⟩

/-- C4: on a store with a capacity of at least one whose `version_count` is the
number of its records and is at most `max_versions`, `addVersion` leaves exactly
the old records followed by the new one (id `next_version_id`, delta
`computeDelta current_content new_content`, the log given), without the old
head when, and only when, the old length was `max_versions`; in that case the
old list is its head followed by the records kept, so one record goes and the
others keep their fields and order. -/
theorem addVersion_nodes_spec (v : VCS) (c l : Str) (hcap : 1 ≤ v.max_versions)
    (hcount : v.version_count = v.nodes.length) (hle : v.version_count ≤ v.max_versions) :
    (addVersion v c l).nodes =
      (if (v.nodes.length : Int) = v.max_versions then v.nodes.drop 1 else v.nodes) ++
        [⟨v.next_version_id, computeDelta v.current_content c, l⟩] ∧
    ((v.nodes.length : Int) = v.max_versions →
      ∃ oldest, v.nodes = oldest :: v.nodes.drop 1 ∧
        (addVersion v c l).nodes.length = v.nodes.length) ∧
    ((v.nodes.length : Int) ≠ v.max_versions →
      (addVersion v c l).nodes.length = v.nodes.length + 1) := by
  have hnew : newVersionNode v c l = ⟨v.next_version_id, computeDelta v.current_content c, l⟩ :=
    rfl
  by_cases hfull : (v.nodes.length : Int) = v.max_versions
  · have hev : evicts v := by unfold evicts; omega
    have hne : v.nodes ≠ [] := by
      intro hnil
      rw [hnil] at hfull
      simp only [List.length_nil, Nat.cast_zero] at hfull
      omega
    obtain ⟨x, xs, hx⟩ := List.exists_cons_of_ne_nil hne
    have hnodes : (addVersion v c l).nodes = xs ++ [newVersionNode v c l] := by
      rw [addVersion_nodes, if_pos hev, hx]
      rfl
    refine ⟨?_, fun _ => ⟨x, ?_, ?_⟩, fun h => absurd hfull h⟩
    · rw [hnodes, if_pos hfull, hx, hnew]
      rfl
    · rw [hx]
      rfl
    · rw [hnodes, hx]
      simp
  · have hev : ¬ evicts v := by unfold evicts; omega
    have hnodes : (addVersion v c l).nodes = v.nodes ++ [newVersionNode v c l] := by
      rw [addVersion_nodes, if_neg hev]
    refine ⟨?_, fun h => absurd h hfull, fun _ => ?_⟩
    · rw [hnodes, if_neg hfull, hnew]
    · rw [hnodes]
      simp

/-- Witness of C4: a full store of capacity 1. -/
theorem addVersion_nodes_spec_witness :
    (addVersion ⟨[⟨1, NO_CHANGE, []⟩], [], 1, 2, 1⟩ "a".toList "l".toList).nodes =
      [⟨2, computeDelta [] "a".toList, "l".toList⟩] := by
  have h := (addVersion_nodes_spec ⟨[⟨1, NO_CHANGE, []⟩], [], 1, 2, 1⟩ "a".toList "l".toList
    (by decide) (by decide) (by decide)).1
  rw [h]
  rfl

/-- C5: in a store built from the set-up of `main` with a capacity of at least
one, `findVersionNode` and `reconstructVersion` return `NULL` for every id that
is at least `next_version_id`, for every id below the id of the head, and for
every id when there is no record. -/
theorem lookup_outside_window_is_null (cap : Int) (seed : Str) (v0 : VCS)
    (ops : List (Str × Str)) (id : Int) (h0 : mainSetup cap seed = some v0) (hcap : 1 ≤ cap)
    (hid : (runAdds v0 ops).next_version_id ≤ id ∨
      (∃ oldest, (runAdds v0 ops).nodes.head? = some oldest ∧ id < oldest.version_id) ∨
      (runAdds v0 ops).nodes = []) :
    findVersionNode (runAdds v0 ops) id = none ∧ reconstructVersion (runAdds v0 ops) id = none := by
  have hinv := storeInv_of_mainSetup cap seed v0 ops h0 hcap
  have hfind : findVersionNode (runAdds v0 ops) id = none := by
    unfold findVersionNode
    apply findVersionLoop_eq_none
    intro n hn
    rcases hid with hge | ⟨oldest, hhead, hlt⟩ | hnil
    · have := hinv.ids_lt n hn
      omega
    · have hsorted := hinv.ids_sorted
      cases hns : (runAdds v0 ops).nodes with
      | nil => rw [hns] at hn; cases hn
      | cons x xs =>
        rw [hns] at hn hhead hsorted
        simp only [List.head?_cons, Option.some.injEq] at hhead
        subst hhead
        rcases List.mem_cons.mp hn with rfl | hmem
        · omega
        · have hx : x.version_id < n.version_id :=
            (List.pairwise_cons.mp hsorted).1 n.version_id (List.mem_map_of_mem _ hmem)
          omega
    · rw [hnil] at hn
      cases hn
  exact ⟨hfind, reconstructVersion_eq_none _ _ hfind⟩

/-- Witness of C5: capacity 1 and two calls leave record 2 only; id 1 is below
the head. -/
theorem lookup_outside_window_is_null_witness :
    findVersionNode (runAdds ⟨[], [], 0, 1, 1⟩ [("a".toList, []), ("b".toList, [])]) 1 = none ∧
    reconstructVersion (runAdds ⟨[], [], 0, 1, 1⟩ [("a".toList, []), ("b".toList, [])]) 1 =
      none :=
  lookup_outside_window_is_null 1 [] ⟨[], [], 0, 1, 1⟩ [("a".toList, []), ("b".toList, [])] 1
    rfl (by decide) (Or.inr (Or.inl ⟨⟨2, computeDelta "a".toList "b".toList, []⟩, rfl,
      by decide⟩))

/-- C6: after `addVersion`, on any store, `current_content` is the content
given, also at the end of any sequence of calls; after the set-up of `main` and
before any call it is the initial content. -/
theorem current_content_is_last_content (v : VCS) (ops : List (Str × Str)) (c l : Str)
    (cap : Int) (seed : Str) :
    (addVersion v c l).current_content = c ∧
    (runAdds v (ops ++ [(c, l)])).current_content = c ∧
    (mainSetup cap seed).map (·.current_content) = some seed ∧
    (buildStore cap seed []).map (·.current_content) = some seed := by
  refine ⟨addVersion_content v c l, ?_, rfl, rfl⟩
  rw [runAdds_append]
  exact addVersion_content _ _ _

/-- C7 (the claim fails): `initializeVCS` does not return `NULL` for every
capacity that is zero or negative; for capacity 0 it returns a store. -/
theorem initializeVCS_zero_not_rejected :
    ¬ (∀ cap : Int, cap ≤ 0 → initializeVCS cap = none) ∧
    initializeVCS 0 = some ⟨[], [], 0, 1, 0⟩ := by
  refine ⟨fun h => ?_, rfl⟩
  have h0 := h 0 (le_refl 0)
  cases h0

/-- C7 (amended): `initializeVCS` checks nothing; for every `max_versions`,
positive or not, it returns a store without records, with an empty
`current_content`, `version_count` 0, `next_version_id` 1 and the
`max_versions` given. -/
theorem initializeVCS_always_succeeds (cap : Int) :
    initializeVCS cap = some ⟨[], [], 0, 1, cap⟩ ∧ (initializeVCS cap).isSome = true :=
  ⟨rfl, rfl⟩

/-- The text that `computeDelta` formats is `NO_CHANGE` exactly when the two
strings are equal, otherwise it is `MODIFIED: ` followed by the old content,
` -> ` and the new content; and the test of `reconstructVersion`, a search for
`MODIFIED`, succeeds on that text exactly when the strings differ.  Whether the
text fits the buffer of `computeDelta` is another matter (`computeDeltaChecked`). -/
theorem computeDelta_spec (old new : Str) :
    (computeDelta old new = NO_CHANGE ↔ old = new) ∧
    (computeDelta old new =
      if old = new then "NO_CHANGE".toList
      else "MODIFIED: ".toList ++ old ++ " -> ".toList ++ new) ∧
    ((strstr (computeDelta old new) MODIFIED).isSome = true ↔ old ≠ new) := by
  by_cases h : old = new
  · rw [computeDelta_of_eq old new h, if_pos h, strstr_no_change]
    exact ⟨⟨fun _ => h, fun _ => rfl⟩, rfl, by simp [h]⟩
  · rw [computeDelta_of_ne old new h, if_neg h, strstr_modified_delta]
    exact ⟨⟨fun hc => absurd hc (modified_delta_ne_no_change old new), fun he => absurd he h⟩,
      rfl, by simp [h]⟩

/-- C9: in a store built from the set-up of `main` with a capacity of at least
one, the ids of the retained records increase strictly from head to tail and
each of them is smaller than `next_version_id`. -/
theorem retained_ids_strictly_increasing (cap : Int) (seed : Str) (v0 : VCS)
    (ops : List (Str × Str)) (h0 : mainSetup cap seed = some v0) (hcap : 1 ≤ cap) :
    ((runAdds v0 ops).nodes.map (·.version_id)).Pairwise (· < ·) ∧
    ∀ n ∈ (runAdds v0 ops).nodes, n.version_id < (runAdds v0 ops).next_version_id :=
  ⟨(storeInv_of_mainSetup cap seed v0 ops h0 hcap).ids_sorted,
    (storeInv_of_mainSetup cap seed v0 ops h0 hcap).ids_lt⟩

/-- Witness of C9: capacity 2 and three calls. -/
theorem retained_ids_strictly_increasing_witness :
    ((runAdds ⟨[], [], 0, 1, 2⟩
        [("a".toList, []), ("b".toList, []), ("c".toList, [])]).nodes.map
          (·.version_id)).Pairwise (· < ·) ∧
    ∀ n ∈ (runAdds ⟨[], [], 0, 1, 2⟩
        [("a".toList, []), ("b".toList, []), ("c".toList, [])]).nodes,
      n.version_id < (runAdds ⟨[], [], 0, 1, 2⟩
        [("a".toList, []), ("b".toList, []), ("c".toList, [])]).next_version_id :=
  retained_ids_strictly_increasing 2 [] ⟨[], [], 0, 1, 2⟩
    [("a".toList, []), ("b".toList, []), ("c".toList, [])] rfl (by decide)

/-- C10 (the claim fails): with capacity 1, the second `addVersion` evicts
record 1; before the call the only retained id is 1, which has no
second-smallest element, and the head after the call is the new record 2. -/
theorem head_after_eviction_not_among_old_records :
    mainSetup 1 [] = some ⟨[], [], 0, 1, 1⟩ ∧
    evicts (runAdds ⟨[], [], 0, 1, 1⟩ [("a".toList, [])]) ∧
    (runAdds ⟨[], [], 0, 1, 1⟩ [("a".toList, [])]).nodes.map (·.version_id) = [1] ∧
    secondSmallestId ((runAdds ⟨[], [], 0, 1, 1⟩ [("a".toList, [])]).nodes.map (·.version_id)) =
      none ∧
    (addVersion (runAdds ⟨[], [], 0, 1, 1⟩ [("a".toList, [])]) "b".toList []).nodes.head?.map
      (·.version_id) = some 2 ∧
    (addVersion (runAdds ⟨[], [], 0, 1, 1⟩ [("a".toList, [])]) "b".toList []).nodes.head?.map
      (·.version_id) ≠
      secondSmallestId ((runAdds ⟨[], [], 0, 1, 1⟩ [("a".toList, [])]).nodes.map (·.version_id)) := by
  refine ⟨rfl, by decide, by decide, by decide, by decide, by decide⟩

/-- C10 (amended): in a store built from the set-up of `main` with a capacity of
at least one, when an `addVersion` call evicts, the record unlinked is the old
head, whose id is the smallest of the ids retained before the call, and the id
of the head after the call is the second-smallest id among the records present
just before the eviction, that is the old records followed by the new one. -/
theorem head_after_eviction_second_smallest (cap : Int) (seed : Str) (v0 : VCS)
    (ops : List (Str × Str)) (c l : Str) (h0 : mainSetup cap seed = some v0) (hcap : 1 ≤ cap)
    (hev : evicts (runAdds v0 ops)) :
    (∃ oldest, (runAdds v0 ops).nodes.head? = some oldest ∧
      (runAdds v0 ops).nodes ++ [newVersionNode (runAdds v0 ops) c l] =
        oldest :: (addVersion (runAdds v0 ops) c l).nodes ∧
      smallestId ((runAdds v0 ops).nodes.map (·.version_id)) = some oldest.version_id ∧
      smallestId (((runAdds v0 ops).nodes ++ [newVersionNode (runAdds v0 ops) c l]).map
        (·.version_id)) = some oldest.version_id) ∧
    (addVersion (runAdds v0 ops) c l).nodes.head?.map (·.version_id) =
      secondSmallestId (((runAdds v0 ops).nodes ++ [newVersionNode (runAdds v0 ops) c l]).map
        (·.version_id)) := by
  have hinv := storeInv_of_mainSetup cap seed v0 ops h0 hcap
  have hinv2 := storeInv_addVersion _ c l hinv
  generalize runAdds v0 ops = v at hinv hinv2 hev
  have hne : v.nodes ≠ [] := by
    intro hnil
    have h1 := hinv.count_eq
    have h2 := hinv.cap_pos
    unfold evicts at hev
    rw [hnil] at h1
    simp only [List.length_nil, Nat.cast_zero] at h1
    omega
  obtain ⟨x, xs, hx⟩ := List.exists_cons_of_ne_nil hne
  have hnodes : (addVersion v c l).nodes = xs ++ [newVersionNode v c l] := by
    rw [addVersion_nodes, if_pos hev, hx]
    rfl
  have hsorted : ((v.nodes ++ [newVersionNode v c l]).map (·.version_id)).Pairwise (· < ·) := by
    rw [List.map_append, List.pairwise_append]
    refine ⟨hinv.ids_sorted, by simp, ?_⟩
    intro a ha b hb
    simp only [List.map_cons, List.map_nil, List.mem_singleton] at hb
    obtain ⟨n, hn, rfl⟩ := List.mem_map.mp ha
    rw [hb]
    exact hinv.ids_lt n hn
  have hold := hinv.ids_sorted
  rw [hnodes]
  rw [hx] at hsorted hold ⊢
  refine ⟨⟨x, rfl, rfl, smallestId_sorted _ _ hold, smallestId_sorted _ _ hsorted⟩, ?_⟩
  cases xs with
  | nil => exact (secondSmallestId_sorted _ _ _ hsorted).symm
  | cons y ys => exact (secondSmallestId_sorted _ _ _ hsorted).symm

/-- Witness of C10 (amended): capacity 1, the second call evicts record 1 and
the new head is record 2. -/
theorem head_after_eviction_second_smallest_witness :
    (addVersion (runAdds ⟨[], [], 0, 1, 1⟩ [("a".toList, [])]) "b".toList []).nodes.head?.map
      (·.version_id) =
      secondSmallestId (((runAdds ⟨[], [], 0, 1, 1⟩ [("a".toList, [])]).nodes ++
        [newVersionNode (runAdds ⟨[], [], 0, 1, 1⟩ [("a".toList, [])]) "b".toList []]).map
          (·.version_id)) :=
  (head_after_eviction_second_smallest 1 [] ⟨[], [], 0, 1, 1⟩ [("a".toList, [])] "b".toList []
    rfl (by decide) (by decide)).2

/-! Facts used by the scenarios and by the read-only operations. -/

theorem applyDelta_unmodified (delta buf : Str) (h : strstr delta MODIFIED = none) :
    applyDelta delta buf = buf := by
  unfold applyDelta
  rw [h]

theorem reconstructLoop_unmodified (id : Int) (ns : List VersionNode) (buf : Str)
    (h : ∀ m ∈ ns, m.version_id ≤ id → isModified m = false) :
    reconstructLoop id ns buf = buf := by
  induction ns generalizing buf with
  | nil => rfl
  | cons a rest ih =>
    have hrest : ∀ m ∈ rest, m.version_id ≤ id → isModified m = false :=
      fun m hm => h m (List.mem_cons_of_mem _ hm)
    unfold reconstructLoop
    by_cases hle : a.version_id ≤ id
    · have ha : strstr a.delta MODIFIED = none := by
        have := h a (List.mem_cons_self _ _) hle
        unfold isModified at this
        cases hs : strstr a.delta MODIFIED with
        | none => rfl
        | some x => rw [hs] at this; cases this
      simp only [if_pos hle, applyDelta_unmodified _ _ ha]
      split
      · rfl
      · exact ih buf hrest
    · simp only [if_neg hle]

theorem nodes_ne_nil_of_evicts (v : VCS) (hcap : 1 ≤ v.max_versions)
    (hcount : v.version_count = v.nodes.length) (hev : evicts v) : v.nodes ≠ [] := by
  intro hnil
  unfold evicts at hev
  rw [hnil] at hcount
  simp only [List.length_nil, Nat.cast_zero] at hcount
  omega

/-! The claims, continued. -/

/-- C11 (scenario A): with capacity 2 and an empty initial content, the calls
`addVersion("v1","init")`, `addVersion("v2","edit")`, `addVersion("v3","edit2")`
give the ids 1, 2, 3; the third call evicts and turns the retained ids 1, 2 into
2, 3; afterwards `findVersionNode(1)` is `NULL`, `reconstructVersion(2)` is
`v2`, `current_content` is `v3` and `version_count` is 2. -/
theorem scenario_A :
    issuedIds ⟨[], [], 0, 1, 2⟩ [("v1".toList, "init".toList), ("v2".toList, "edit".toList),
      ("v3".toList, "edit2".toList)] = [1, 2, 3] ∧
    (buildStore 2 [] [("v1".toList, "init".toList), ("v2".toList, "edit".toList)]).map
      (fun v => (decide (evicts v), v.nodes.map (·.version_id))) = some (true, [1, 2]) ∧
    (buildStore 2 [] [("v1".toList, "init".toList), ("v2".toList, "edit".toList),
      ("v3".toList, "edit2".toList)]).map (fun v => v.nodes.map (·.version_id)) =
        some [2, 3] ∧
    (buildStore 2 [] [("v1".toList, "init".toList), ("v2".toList, "edit".toList),
      ("v3".toList, "edit2".toList)]).map (fun v => findVersionNode v 1) = some none ∧
    (buildStore 2 [] [("v1".toList, "init".toList), ("v2".toList, "edit".toList),
      ("v3".toList, "edit2".toList)]).map (fun v => reconstructVersion v 2) =
        some (some "v2".toList) ∧
    (buildStore 2 [] [("v1".toList, "init".toList), ("v2".toList, "edit".toList),
      ("v3".toList, "edit2".toList)]).map (fun v => (v.current_content, v.version_count)) =
        some ("v3".toList, 2) := by
  refine ⟨by decide, by decide, by decide, by decide, by decide, by decide⟩

/-- C12 (scenario B and its general form): with capacity 3 and the initial
content `x`, `addVersion("x","noop")` creates record 1 with the delta
`NO_CHANGE`, `current_content` stays `x` and `reconstructVersion(1)` is the
empty string, not `NULL`; and in any store, for a retained id such that no
record of the chain with an id up to it has a delta containing `MODIFIED`,
`reconstructVersion` returns the empty string. -/
theorem reconstructVersion_without_modified (v : VCS) (id : Int) (node : VersionNode)
    (hfind : findVersionNode v id = some node)
    (hno : ∀ m ∈ v.nodes, m.version_id ≤ id → isModified m = false) :
    reconstructVersion v id = some [] ∧
    buildStore 3 "x".toList [("x".toList, "noop".toList)] =
      some ⟨[⟨1, "NO_CHANGE".toList, "noop".toList⟩], "x".toList, 1, 2, 3⟩ ∧
    (buildStore 3 "x".toList [("x".toList, "noop".toList)]).map
      (fun s => reconstructVersion s 1) = some (some []) := by
  refine ⟨?_, by decide, by decide⟩
  unfold reconstructVersion
  rw [hfind]
  simp only [reconstructLoop_unmodified id v.nodes [] hno]

/-- Witness of C12: the store of scenario B and id 1. -/
theorem reconstructVersion_without_modified_witness :
    reconstructVersion ⟨[⟨1, "NO_CHANGE".toList, "noop".toList⟩], "x".toList, 1, 2, 3⟩ 1 =
      some [] :=
  (reconstructVersion_without_modified
    ⟨[⟨1, "NO_CHANGE".toList, "noop".toList⟩], "x".toList, 1, 2, 3⟩ 1
    ⟨1, "NO_CHANGE".toList, "noop".toList⟩ (by decide) (by decide)).1

/-- C16: with capacity 1 and an empty initial content, `addVersion("a", _)`
twice evicts record 1 at the second call and leaves record 2 alone, with the
delta `NO_CHANGE`; `reconstructVersion(2)` is the empty string although the
content given for version 2, and `current_content`, is `a`. -/
theorem reconstructVersion_empty_after_eviction :
    (buildStore 1 [] [("a".toList, "l1".toList)]).map
      (fun v => (decide (evicts v), v.nodes.map (·.version_id))) = some (true, [1]) ∧
    buildStore 1 [] [("a".toList, "l1".toList), ("a".toList, "l2".toList)] =
      some ⟨[⟨2, "NO_CHANGE".toList, "l2".toList⟩], "a".toList, 1, 3, 1⟩ ∧
    (buildStore 1 [] [("a".toList, "l1".toList), ("a".toList, "l2".toList)]).map
      (fun v => reconstructVersion v 2) = some (some []) ∧
    "a".toList ≠ ([] : Str) := by
  refine ⟨by decide, by decide, by decide, by decide⟩

/-- C13 (scenario C): on a store with a capacity of at least one whose
`version_count` is the number of its records and at most `max_versions`, the
second of two consecutive `addVersion` calls with the same content creates the
record with id `next_version_id + 1` and delta `NO_CHANGE`, which is the tail
afterwards, one more than the id of the first call; when the capacity is at
least two and `current_content` already was that content, the chain ends with
the two new records, both `NO_CHANGE`, with ids `next_version_id` and
`next_version_id + 1`. -/
theorem two_adds_same_content (v : VCS) (c l1 l2 : Str) (hcap : 1 ≤ v.max_versions)
    (hcount : v.version_count = v.nodes.length) (hle : v.version_count ≤ v.max_versions) :
    newVersionNode (addVersion v c l1) c l2 = ⟨v.next_version_id + 1, NO_CHANGE, l2⟩ ∧
    (addVersion (addVersion v c l1) c l2).nodes.getLast? =
      some ⟨v.next_version_id + 1, NO_CHANGE, l2⟩ ∧
    (newVersionNode (addVersion v c l1) c l2).version_id ≠ (newVersionNode v c l1).version_id ∧
    (2 ≤ v.max_versions → v.current_content = c →
      ∃ older, (addVersion (addVersion v c l1) c l2).nodes =
        older ++ [⟨v.next_version_id, NO_CHANGE, l1⟩, ⟨v.next_version_id + 1, NO_CHANGE, l2⟩]) := by
  have hnew2 : newVersionNode (addVersion v c l1) c l2 = ⟨v.next_version_id + 1, NO_CHANGE, l2⟩ := by
    unfold newVersionNode createVersionNode
    rw [addVersion_next, addVersion_content, computeDelta_of_eq c c rfl]
  have hmax1 : (addVersion v c l1).max_versions = v.max_versions := addVersion_max v c l1
  have hnodes2 := addVersion_nodes (addVersion v c l1) c l2
  have hnodes1 := addVersion_nodes v c l1
  have hcount1 := addVersion_count v c l1
  rw [hnew2] at hnodes2
  -- the length of the chain after the first call
  have hlen1 : (addVersion v c l1).version_count = (addVersion v c l1).nodes.length := by
    rw [hcount1, hnodes1]
    split
    · rename_i hev
      unfold evicts at hev
      simp only [List.length_drop, List.length_append, List.length_singleton]
      omega
    · simp only [List.length_append, List.length_singleton]
      push_cast
      omega
  refine ⟨hnew2, ?_, ?_, ?_⟩
  · rw [hnodes2]
    split
    · rename_i hev
      have hne := nodes_ne_nil_of_evicts (addVersion v c l1) (by rw [hmax1]; exact hcap) hlen1 hev
      obtain ⟨x, xs, hx⟩ := List.exists_cons_of_ne_nil hne
      rw [hx]
      simp
    · simp
  · rw [hnew2]
    show v.next_version_id + 1 ≠ v.next_version_id
    omega
  · intro hcap2 hcur
    have hnew1 : newVersionNode v c l1 = ⟨v.next_version_id, NO_CHANGE, l1⟩ := by
      unfold newVersionNode createVersionNode
      rw [hcur, computeDelta_of_eq c c rfl]
    rw [hnew1] at hnodes1
    by_cases hev2 : evicts (addVersion v c l1)
    · -- the chain after the first call has at least two records
      have hlen2 : 2 ≤ (addVersion v c l1).nodes.length := by
        unfold evicts at hev2
        rw [hmax1] at hev2
        omega
      rw [hnodes2, if_pos hev2]
      by_cases hev1 : evicts v
      · rw [hnodes1, if_pos hev1] at hlen2 ⊢
        obtain ⟨x, xs, hx⟩ := List.exists_cons_of_ne_nil
          (nodes_ne_nil_of_evicts v hcap hcount hev1)
        rw [hx] at hlen2 ⊢
        cases xs with
        | nil => simp at hlen2
        | cons y ys => exact ⟨ys, by simp⟩
      · rw [hnodes1, if_neg hev1] at hlen2 ⊢
        cases hv : v.nodes with
        | nil => rw [hv] at hlen2; simp at hlen2
        | cons y ys => exact ⟨ys, by simp⟩
    · rw [hnodes2, if_neg hev2]
      by_cases hev1 : evicts v
      · rw [hnodes1, if_pos hev1]
        obtain ⟨x, xs, hx⟩ := List.exists_cons_of_ne_nil
          (nodes_ne_nil_of_evicts v hcap hcount hev1)
        rw [hx]
        exact ⟨xs, by simp⟩
      · rw [hnodes1, if_neg hev1]
        exact ⟨v.nodes, by simp⟩

/-- Witness of C13: a full store of capacity 2 whose content is already `c`. -/
theorem two_adds_same_content_witness :
    (addVersion (addVersion ⟨[⟨1, NO_CHANGE, []⟩, ⟨2, NO_CHANGE, []⟩], "c".toList, 2, 3, 2⟩
      "c".toList "l1".toList) "c".toList "l2".toList).nodes.getLast? =
      some ⟨3 + 1, NO_CHANGE, "l2".toList⟩ :=
  (two_adds_same_content ⟨[⟨1, NO_CHANGE, []⟩, ⟨2, NO_CHANGE, []⟩], "c".toList, 2, 3, 2⟩
    "c".toList "l1".toList "l2".toList (by decide) (by decide) (by decide)).2.1

/-- C18: in a store built from the set-up of `main` with a capacity of at least
one, a call of `addVersion` that enters the eviction branch finds a chain of at
least two records there (the old ones, at least one, and the new one), so the
node at `head` exists and so does its successor, the head after the eviction;
and after every call the chain is not empty, its last node is the node just
created, and that node is in the chain that starts at `head`. -/
theorem eviction_keeps_tail (cap : Int) (seed : Str) (v0 : VCS) (ops : List (Str × Str))
    (c l : Str) (h0 : mainSetup cap seed = some v0) (hcap : 1 ≤ cap) :
    (evicts (runAdds v0 ops) →
      2 ≤ ((runAdds v0 ops).nodes ++ [newVersionNode (runAdds v0 ops) c l]).length ∧
      ∃ oldest newHead rest,
        (runAdds v0 ops).nodes ++ [newVersionNode (runAdds v0 ops) c l] =
          oldest :: newHead :: rest ∧
        (addVersion (runAdds v0 ops) c l).nodes = newHead :: rest) ∧
    (addVersion (runAdds v0 ops) c l).nodes ≠ [] ∧
    (addVersion (runAdds v0 ops) c l).nodes.getLast? =
      some (newVersionNode (runAdds v0 ops) c l) ∧
    newVersionNode (runAdds v0 ops) c l ∈ (addVersion (runAdds v0 ops) c l).nodes := by
  have hinv := storeInv_of_mainSetup cap seed v0 ops h0 hcap
  generalize runAdds v0 ops = v at hinv
  have hnodes := addVersion_nodes v c l
  have hlast : (addVersion v c l).nodes.getLast? = some (newVersionNode v c l) := by
    rw [hnodes]
    split
    · rename_i hev
      obtain ⟨x, xs, hx⟩ := List.exists_cons_of_ne_nil
        (nodes_ne_nil_of_evicts v hinv.cap_pos hinv.count_eq hev)
      rw [hx]
      simp
    · simp
  refine ⟨fun hev => ?_, ?_, hlast, List.mem_of_getLast?_eq_some hlast⟩
  · obtain ⟨x, xs, hx⟩ := List.exists_cons_of_ne_nil
      (nodes_ne_nil_of_evicts v hinv.cap_pos hinv.count_eq hev)
    rw [hnodes, if_pos hev, hx]
    refine ⟨by simp, ?_⟩
    cases xs with
    | nil => exact ⟨x, newVersionNode v c l, [], rfl, rfl⟩
    | cons y ys => exact ⟨x, y, ys ++ [newVersionNode v c l], rfl, rfl⟩
  · intro hnil
    rw [hnil] at hlast
    cases hlast

/-- Witness of C18: capacity 1, the second call evicts. -/
theorem eviction_keeps_tail_witness :
    (addVersion (runAdds ⟨[], [], 0, 1, 1⟩ [("a".toList, [])]) "b".toList []).nodes.getLast? =
      some (newVersionNode (runAdds ⟨[], [], 0, 1, 1⟩ [("a".toList, [])]) "b".toList []) :=
  (eviction_keeps_tail 1 [] ⟨[], [], 0, 1, 1⟩ [("a".toList, [])] "b".toList []
    rfl (by decide)).2.2.1

/-! The chain of a store built through the interface, in closed form. -/

theorem historyFrom_length (id : Int) (prev : Str) (ops : List (Str × Str)) :
    (historyFrom id prev ops).length = ops.length := by
  induction ops generalizing id prev with
  | nil => rfl
  | cons op rest ih => simp [historyFrom, ih]

theorem historyFrom_ids (id : Int) (prev : Str) (ops : List (Str × Str)) :
    (historyFrom id prev ops).map (·.version_id) =
      (List.range ops.length).map (fun (i : Nat) => id + (i : Int)) := by
  induction ops generalizing id prev with
  | nil => rfl
  | cons op rest ih =>
    simp only [historyFrom, List.map_cons, ih, List.length_cons, List.range_succ_eq_map,
      List.map_map]
    refine congrArg₂ _ ?_ ?_
    · simp [createVersionNode]
    · apply List.map_congr_left
      intro k _
      simp only [Function.comp, Nat.cast_succ]
      ring

theorem historyFrom_id_bounds (id : Int) (prev : Str) (ops : List (Str × Str)) (m : VersionNode)
    (hm : m ∈ historyFrom id prev ops) :
    id ≤ m.version_id ∧ m.version_id < id + (ops.length : Int) := by
  have hmem : m.version_id ∈ (historyFrom id prev ops).map (·.version_id) :=
    List.mem_map_of_mem _ hm
  rw [historyFrom_ids] at hmem
  obtain ⟨i, hi, hie⟩ := List.mem_map.mp hmem
  have hlt := List.mem_range.mp hi
  omega

theorem historyFrom_mem_of_bounds (id : Int) (prev : Str) (ops : List (Str × Str)) (k : Int)
    (h1 : id ≤ k) (h2 : k < id + (ops.length : Int)) :
    ∃ m ∈ historyFrom id prev ops, m.version_id = k := by
  have hmem : k ∈ (historyFrom id prev ops).map (·.version_id) := by
    rw [historyFrom_ids]
    refine List.mem_map.mpr ⟨(k - id).toNat, List.mem_range.mpr ?_, ?_⟩
    · omega
    · show id + (((k - id).toNat : Nat) : Int) = k
      omega
  obtain ⟨m, hm, hmk⟩ := List.mem_map.mp hmem
  exact ⟨m, hm, hmk⟩

theorem lastContent_append (prev : Str) (a b : List (Str × Str)) :
    lastContent prev (a ++ b) = lastContent (lastContent prev a) b := by
  induction a generalizing prev with
  | nil => rfl
  | cons op rest ih => exact ih op.1

theorem historyFrom_append (id : Int) (prev : Str) (ops : List (Str × Str)) (op : Str × Str) :
    historyFrom id prev (ops ++ [op]) =
      historyFrom id prev ops ++
        [createVersionNode (id + (ops.length : Int)) (computeDelta (lastContent prev ops) op.1)
          op.2] := by
  induction ops generalizing id prev with
  | nil => simp [historyFrom, lastContent]
  | cons o rest ih =>
    have harith : id + 1 + (rest.length : Int) = id + ((rest.length : Int) + 1) := by ring
    show createVersionNode id (computeDelta prev o.1) o.2 :: historyFrom (id + 1) o.1 (rest ++ [op]) = _
    rw [ih]
    simp only [List.cons_append, historyFrom, lastContent, List.length_cons, Nat.cast_succ, harith]

theorem historyFrom_drop (id : Int) (prev : Str) (ops : List (Str × Str)) (d : Nat) :
    (historyFrom id prev ops).drop d =
      historyFrom (id + (d : Int)) (lastContent prev (ops.take d)) (ops.drop d) := by
  induction d generalizing id prev ops with
  | zero => simp [lastContent]
  | succ d ih =>
    cases ops with
    | nil => simp [historyFrom]
    | cons o rest =>
      simp only [historyFrom, List.drop_succ_cons, List.take_succ_cons, lastContent, ih,
        Nat.cast_succ]
      have : id + 1 + (d : Int) = id + ((d : Int) + 1) := by ring
      rw [this]

theorem runAdds_content (v : VCS) (ops : List (Str × Str)) :
    (runAdds v ops).current_content = lastContent v.current_content ops := by
  induction ops generalizing v with
  | nil => rfl
  | cons o rest ih => simp [runAdds, lastContent, ih, addVersion_content]

theorem runAdds_nodes (cap : Int) (seed : Str) (ops : List (Str × Str)) (hcap : 1 ≤ cap) :
    (runAdds ⟨[], seed, 0, 1, cap⟩ ops).nodes =
        (historyFrom 1 seed ops).drop (ops.length - cap.toNat) ∧
    (runAdds ⟨[], seed, 0, 1, cap⟩ ops).version_count = min (ops.length : Int) cap := by
  induction ops using List.reverseRecOn with
  | nil =>
    refine ⟨by simp [runAdds, historyFrom], ?_⟩
    show (0 : Int) = min ((0 : Nat) : Int) cap
    omega
  | append_singleton ops op ih =>
    obtain ⟨ihn, ihc⟩ := ih
    have hnew : newVersionNode (runAdds ⟨[], seed, 0, 1, cap⟩ ops) op.1 op.2 =
        createVersionNode (1 + (ops.length : Int)) (computeDelta (lastContent seed ops) op.1)
          op.2 := by
      unfold newVersionNode
      rw [runAdds_next, runAdds_content]
    have hmax : (runAdds ⟨[], seed, 0, 1, cap⟩ ops).max_versions = cap := runAdds_max _ _
    have hlen : (historyFrom 1 seed ops).length = ops.length := historyFrom_length _ _ _
    have hlen2 : (ops ++ [op]).length = ops.length + 1 := by simp
    rw [runAdds_append, addVersion_nodes, addVersion_count, historyFrom_append, hnew, ihn, hlen2]
    generalize runAdds ⟨[], seed, 0, 1, cap⟩ ops = v at ihn ihc hmax hnew
    generalize createVersionNode (1 + (ops.length : Int))
      (computeDelta (lastContent seed ops) op.1) op.2 = node
    by_cases hfull : (cap : Int) ≤ (ops.length : Int)
    · have hc : cap.toNat ≤ ops.length := by omega
      have hev : evicts v := by unfold evicts; omega
      rw [if_pos hev, if_pos hev]
      constructor
      · rw [← List.drop_append_of_le_length (by omega), List.drop_drop]
        congr 1
        omega
      · push_cast
        omega
    · have hev : ¬ evicts v := by unfold evicts; omega
      rw [if_neg hev, if_neg hev]
      have h1 : ops.length - cap.toNat = 0 := by omega
      have h2 : ops.length + 1 - cap.toNat = 0 := by omega
      rw [h1, h2]
      constructor
      · simp
      · push_cast
        omega

theorem findVersionLoop_some (id : Int) (ns : List VersionNode) (m : VersionNode)
    (h : findVersionLoop id ns = some m) : m ∈ ns ∧ m.version_id = id := by
  induction ns with
  | nil => cases h
  | cons a rest ih =>
    unfold findVersionLoop at h
    by_cases ha : a.version_id = id
    · rw [if_pos ha] at h
      cases h
      exact ⟨List.mem_cons_self _ _, ha⟩
    · rw [if_neg ha] at h
      exact ⟨List.mem_cons_of_mem _ (ih h).1, (ih h).2⟩

theorem findVersionLoop_isSome_of_mem (id : Int) (ns : List VersionNode) (m : VersionNode)
    (hm : m ∈ ns) (hid : m.version_id = id) : (findVersionLoop id ns).isSome = true := by
  induction ns with
  | nil => cases hm
  | cons a rest ih =>
    unfold findVersionLoop
    by_cases ha : a.version_id = id
    · rw [if_pos ha]
      rfl
    · rw [if_neg ha]
      rcases List.mem_cons.mp hm with rfl | hmem
      · exact absurd hid ha
      · exact ih hmem

theorem runAdds_window (cap : Int) (seed : Str) (ops : List (Str × Str)) (hcap : 1 ≤ cap) :
    (runAdds ⟨[], seed, 0, 1, cap⟩ ops).nodes =
      historyFrom (1 + ((ops.length - cap.toNat : Nat) : Int))
        (lastContent seed (ops.take (ops.length - cap.toNat)))
        (ops.drop (ops.length - cap.toNat)) := by
  rw [(runAdds_nodes cap seed ops hcap).1, historyFrom_drop]

/-- C17: after n calls of `addVersion` on a store set up by `main` with a
capacity of at least one, `version_count` is the number of retained records,
which is the smaller of n and the capacity; the retained ids are, in order,
the consecutive integers that end at n, that is the integers from
`next_version_id - version_count` to `next_version_id - 1`; `findVersionNode`
finds a record exactly for the ids of that range, and the record found has the
id asked for. -/
theorem retained_window_is_contiguous (cap : Int) (seed : Str) (v0 : VCS)
    (ops : List (Str × Str)) (id : Int) (h0 : mainSetup cap seed = some v0) (hcap : 1 ≤ cap) :
    (runAdds v0 ops).version_count = (runAdds v0 ops).nodes.length ∧
    ((runAdds v0 ops).nodes.length : Int) = min (ops.length : Int) cap ∧
    (runAdds v0 ops).nodes.map (·.version_id) =
      (List.range (runAdds v0 ops).nodes.length).map
        (fun (i : Nat) => (ops.length : Int) - min (ops.length : Int) cap + 1 + (i : Int)) ∧
    (runAdds v0 ops).next_version_id - (runAdds v0 ops).version_count =
      (ops.length : Int) - min (ops.length : Int) cap + 1 ∧
    (runAdds v0 ops).next_version_id - 1 = (ops.length : Int) ∧
    ((findVersionNode (runAdds v0 ops) id).isSome = true ↔
      (ops.length : Int) - min (ops.length : Int) cap + 1 ≤ id ∧ id ≤ (ops.length : Int)) ∧
    (∀ m, findVersionNode (runAdds v0 ops) id = some m → m.version_id = id) := by
  have hinv := storeInv_of_mainSetup cap seed v0 ops h0 hcap
  rw [mainSetup_eq] at h0
  cases h0
  have hwin := runAdds_window cap seed ops hcap
  have hcnt := (runAdds_nodes cap seed ops hcap).2
  have hnext : (runAdds ⟨[], seed, 0, 1, cap⟩ ops).next_version_id = 1 + (ops.length : Int) :=
    runAdds_next _ _
  have hce := hinv.count_eq
  have hlen : ((runAdds ⟨[], seed, 0, 1, cap⟩ ops).nodes.length : Int) =
      min (ops.length : Int) cap := by rw [← hce, hcnt]
  have hd : (((ops.length - cap.toNat : Nat) : Int)) =
      (ops.length : Int) - min (ops.length : Int) cap := by omega
  have hdl : ((ops.drop (ops.length - cap.toNat)).length : Int) =
      min (ops.length : Int) cap := by
    rw [List.length_drop]
    omega
  refine ⟨hce, hlen, ?_, ?_, ?_, ?_, ?_⟩
  · have hl2 : (runAdds ⟨[], seed, 0, 1, cap⟩ ops).nodes.length =
        (ops.drop (ops.length - cap.toNat)).length := by
      rw [hwin, historyFrom_length]
    rw [hl2, hwin, historyFrom_ids]
    apply List.map_congr_left
    intro i _
    show 1 + ((ops.length - cap.toNat : Nat) : Int) + (i : Int) =
      (ops.length : Int) - min (ops.length : Int) cap + 1 + (i : Int)
    omega
  · rw [hnext, hcnt]
    omega
  · rw [hnext]
    omega
  · unfold findVersionNode
    rw [hwin]
    constructor
    · intro hsome
      obtain ⟨m, hm⟩ := Option.isSome_iff_exists.mp hsome
      obtain ⟨hmem, hmid⟩ := findVersionLoop_some _ _ _ hm
      have hb := historyFrom_id_bounds _ _ _ _ hmem
      omega
    · intro hrange
      obtain ⟨m, hm, hmid⟩ := historyFrom_mem_of_bounds
        (1 + ((ops.length - cap.toNat : Nat) : Int))
        (lastContent seed (ops.take (ops.length - cap.toNat)))
        (ops.drop (ops.length - cap.toNat)) id (by omega) (by omega)
      exact findVersionLoop_isSome_of_mem _ _ m hm hmid
  · intro m hm
    exact (findVersionLoop_some _ _ _ hm).2

/-- Witness of C17: capacity 2 and three calls, id 2. -/
theorem retained_window_is_contiguous_witness :
    (runAdds ⟨[], [], 0, 1, 2⟩
      [("a".toList, []), ("b".toList, []), ("c".toList, [])]).nodes.map (·.version_id) =
      [2, 3] ∧
    (findVersionNode (runAdds ⟨[], [], 0, 1, 2⟩
      [("a".toList, []), ("b".toList, []), ("c".toList, [])]) 2).isSome = true := by
  have h := retained_window_is_contiguous 2 [] ⟨[], [], 0, 1, 2⟩
    [("a".toList, []), ("b".toList, []), ("c".toList, [])] 2 rfl (by decide)
  exact ⟨by decide, h.2.2.2.2.2.1.mpr (by decide)⟩

/-! The walk of `reconstructVersion` over a chain made by `addVersion`. -/

theorem strchr_append_of_not_mem (xs ys : Str) (c : Char) (h : c ∉ xs) :
    strchr (xs ++ ys) c = strchr ys c := by
  induction xs with
  | nil => rfl
  | cons x rest ih =>
    have hx : x ≠ c := fun hxc => h (hxc ▸ List.mem_cons_self _ _)
    have hrest : c ∉ rest := fun hc => h (List.mem_cons_of_mem _ hc)
    show (if x = c then some (x :: (rest ++ ys)) else strchr (rest ++ ys) c) = strchr ys c
    rw [if_neg hx]
    exact ih hrest

theorem strchr_modified_delta (old new : Str) (hgt : '>' ∉ old) :
    strchr ("MODIFIED: ".toList ++ old ++ " -> ".toList ++ new) '>' = some ('>' :: ' ' :: new) := by
  have hlit : '>' ∉ "MODIFIED: ".toList := by decide
  rw [List.append_assoc, List.append_assoc, strchr_append_of_not_mem _ _ _ hlit,
    strchr_append_of_not_mem _ _ _ hgt]
  have harrow : " -> ".toList = [' ', '-', '>', ' '] := rfl
  rw [harrow]
  simp [strchr]

theorem applyDelta_modified (old new buf : Str) (hne : old ≠ new) (hgt : '>' ∉ old) :
    applyDelta (computeDelta old new) buf = new := by
  have hs := strstr_modified_delta old new
  rw [computeDelta_of_ne old new hne]
  unfold applyDelta
  cases hst : strstr ("MODIFIED: ".toList ++ old ++ " -> ".toList ++ new) MODIFIED with
  | none => rw [hst] at hs; cases hs
  | some x =>
    simp only [strchr_modified_delta old new hgt]
    rfl

theorem applyDelta_no_change (c buf : Str) : applyDelta (computeDelta c c) buf = buf := by
  rw [computeDelta_of_eq c c rfl]
  exact applyDelta_unmodified _ _ strstr_no_change

theorem isModified_createVersionNode (id : Int) (old new l : Str) :
    isModified (createVersionNode id (computeDelta old new) l) = true ↔ old ≠ new := by
  unfold isModified createVersionNode
  by_cases h : old = new
  · simp only [computeDelta_of_eq old new h, strstr_no_change]
    simp [h]
  · simp only [computeDelta_of_ne old new h, strstr_modified_delta]
    simp [h]

theorem lastContent_no_gt (prev : Str) (ops : List (Str × Str)) (hprev : '>' ∉ prev)
    (hops : ∀ op ∈ ops, '>' ∉ op.1) : '>' ∉ lastContent prev ops := by
  induction ops generalizing prev with
  | nil => exact hprev
  | cons o rest ih =>
    exact ih o.1 (hops o (List.mem_cons_self _ _)) (fun op hop => hops op (List.mem_cons_of_mem _ hop))

theorem reconstructLoop_cons_eq (k : Int) (a : VersionNode) (rest : List VersionNode) (buf : Str)
    (h : a.version_id = k) : reconstructLoop k (a :: rest) buf = applyDelta a.delta buf := by
  unfold reconstructLoop
  simp only [if_pos (le_of_eq h), if_pos h]

theorem reconstructLoop_cons_lt (k : Int) (a : VersionNode) (rest : List VersionNode) (buf : Str)
    (h : a.version_id < k) :
    reconstructLoop k (a :: rest) buf = reconstructLoop k rest (applyDelta a.delta buf) := by
  rw [reconstructLoop]
  simp only [if_pos (le_of_lt h), if_neg (ne_of_lt h)]

theorem reconstructLoop_history (ops : List (Str × Str)) (id : Int) (prev buf : Str) (k : Int)
    (hprev : '>' ∉ prev) (hops : ∀ op ∈ ops, '>' ∉ op.1) (h1 : id ≤ k)
    (h2 : k < id + (ops.length : Int))
    (hsync : buf = prev ∨
      ∃ m ∈ historyFrom id prev ops, m.version_id ≤ k ∧ isModified m = true) :
    ∃ op, ops[(k - id).toNat]? = some op ∧
      reconstructLoop k (historyFrom id prev ops) buf = op.1 := by
  induction ops generalizing id prev buf with
  | nil =>
    simp only [List.length_nil, Nat.cast_zero] at h2
    omega
  | cons o rest ih =>
    have ho : '>' ∉ o.1 := hops o (List.mem_cons_self _ _)
    have hrest : ∀ op ∈ rest, '>' ∉ op.1 := fun op hop => hops op (List.mem_cons_of_mem _ hop)
    -- the buffer after the first node is the content of the first call
    have hbuf : applyDelta (computeDelta prev o.1) buf = o.1 ∨
        (prev = o.1 ∧ applyDelta (computeDelta prev o.1) buf = buf ∧
          ∃ m ∈ historyFrom (id + 1) o.1 rest, m.version_id ≤ k ∧ isModified m = true) := by
      by_cases hpo : prev = o.1
      · rcases hsync with hb | ⟨m, hm, hmk, hmod⟩
        · left
          rw [hpo, applyDelta_no_change, hb, hpo]
        · right
          refine ⟨hpo, by rw [hpo, applyDelta_no_change], ?_⟩
          rcases List.mem_cons.mp hm with rfl | hmem
          · have := (isModified_createVersionNode id prev o.1 o.2).mp hmod
            exact absurd hpo this
          · exact ⟨m, hmem, hmk, hmod⟩
      · left
        exact applyDelta_modified prev o.1 buf hpo hprev
    show ∃ op, (o :: rest)[(k - id).toNat]? = some op ∧
      reconstructLoop k (createVersionNode id (computeDelta prev o.1) o.2 ::
        historyFrom (id + 1) o.1 rest) buf = op.1
    by_cases hk : id = k
    · have hidx : (k - id).toNat = 0 := by omega
      rw [hidx, reconstructLoop_cons_eq k _ _ _ hk]
      refine ⟨o, by simp, ?_⟩
      show applyDelta (computeDelta prev o.1) buf = o.1
      rcases hbuf with hb | ⟨_, _, m, hm, hmk, _⟩
      · exact hb
      · have := (historyFrom_id_bounds _ _ _ _ hm).1
        omega
    · have hlt : id < k := lt_of_le_of_ne h1 hk
      have hidx : (k - id).toNat = (k - (id + 1)).toNat + 1 := by omega
      rw [hidx, reconstructLoop_cons_lt k _ _ _ hlt]
      have hlen : k < id + 1 + (rest.length : Int) := by
        simp only [List.length_cons, Nat.cast_succ] at h2
        omega
      have hsync2 : applyDelta (computeDelta prev o.1) buf = o.1 ∨
          ∃ m ∈ historyFrom (id + 1) o.1 rest, m.version_id ≤ k ∧ isModified m = true := by
        rcases hbuf with hb | ⟨_, _, hex⟩
        · exact Or.inl hb
        · exact Or.inr hex
      obtain ⟨op, hop, hres⟩ := ih (id + 1) o.1 (applyDelta (computeDelta prev o.1) buf) ho hrest
        (by omega) hlen hsync2
      exact ⟨op, by simpa using hop, hres⟩

theorem nil_or_append_singleton (ops : List (Str × Str)) :
    ops = [] ∨ ∃ init last, ops = init ++ [last] := by
  rcases List.eq_nil_or_concat ops with h | ⟨init, last, h⟩
  · exact Or.inl h
  · exact Or.inr ⟨init, last, by rw [h, List.concat_eq_append]⟩

theorem historyFrom_getLast (id : Int) (prev : Str) (ops : List (Str × Str)) (t : VersionNode)
    (h : (historyFrom id prev ops).getLast? = some t) :
    t.version_id = id + (ops.length : Int) - 1 := by
  rcases nil_or_append_singleton ops with rfl | ⟨init, last, rfl⟩
  · cases h
  · rw [historyFrom_append] at h
    have ht : createVersionNode (id + (init.length : Int))
        (computeDelta (lastContent prev init) last.1) last.2 = t := by simpa using h
    rw [← ht]
    simp only [createVersionNode, List.length_append, List.length_singleton]
    push_cast
    ring

theorem lastContent_concat (prev : Str) (init : List (Str × Str)) (last : Str × Str) :
    lastContent prev (init ++ [last]) = last.1 := by
  rw [lastContent_append]
  rfl

/-- C15: in a store built from the set-up of `main` with a capacity of at least
one, when neither the initial content nor any content given to `addVersion`
contains `>`, for every retained id k such that some retained record with an id
up to k has a delta containing `MODIFIED`, `reconstructVersion(k)` returns the
content given to the k-th call, the one that created record k; when k is the id
of the tail this is `current_content`. -/
theorem reconstructVersion_round_trip (cap : Int) (seed : Str) (v0 : VCS)
    (ops : List (Str × Str)) (k : Int) (node : VersionNode)
    (h0 : mainSetup cap seed = some v0) (hcap : 1 ≤ cap)
    (hseed : '>' ∉ seed) (hops : ∀ op ∈ ops, '>' ∉ op.1)
    (hfind : findVersionNode (runAdds v0 ops) k = some node)
    (hmod : ∃ m ∈ (runAdds v0 ops).nodes, m.version_id ≤ k ∧ isModified m = true) :
    (∃ op, ops[(k - 1).toNat]? = some op ∧
      reconstructVersion (runAdds v0 ops) k = some op.1) ∧
    (∀ t, (runAdds v0 ops).nodes.getLast? = some t → k = t.version_id →
      reconstructVersion (runAdds v0 ops) k = some (runAdds v0 ops).current_content) := by
  rw [mainSetup_eq] at h0
  cases h0
  have hwin := runAdds_window cap seed ops hcap
  have hcur : (runAdds ⟨[], seed, 0, 1, cap⟩ ops).current_content = lastContent seed ops :=
    runAdds_content _ _
  have hrec : reconstructVersion (runAdds ⟨[], seed, 0, 1, cap⟩ ops) k =
      some (reconstructLoop k (runAdds ⟨[], seed, 0, 1, cap⟩ ops).nodes []) := by
    unfold reconstructVersion
    rw [hfind]
  unfold findVersionNode at hfind
  rw [hrec, hcur]
  rw [hwin] at hfind hmod ⊢
  generalize hd : ops.length - cap.toNat = d at hfind hmod ⊢
  have hdle : d ≤ ops.length := by omega
  obtain ⟨hmem, hid⟩ := findVersionLoop_some _ _ _ hfind
  have hb := historyFrom_id_bounds _ _ _ _ hmem
  rw [hid] at hb
  have hprev : '>' ∉ lastContent seed (ops.take d) :=
    lastContent_no_gt seed _ hseed (fun op hop => hops op (List.mem_of_mem_take hop))
  have hdrop : ∀ op ∈ ops.drop d, '>' ∉ op.1 :=
    fun op hop => hops op (List.mem_of_mem_drop hop)
  obtain ⟨op, hop, hres⟩ := reconstructLoop_history (ops.drop d) (1 + (d : Int))
    (lastContent seed (ops.take d)) [] k hprev hdrop hb.1 hb.2 (Or.inr hmod)
  have hidx : d + (k - (1 + (d : Int))).toNat = (k - 1).toNat := by omega
  rw [List.getElem?_drop, hidx] at hop
  refine ⟨⟨op, hop, by rw [hres]⟩, ?_⟩
  intro t ht hkt
  have htid := historyFrom_getLast _ _ _ t ht
  rw [List.length_drop] at htid
  have hkn : k = (ops.length : Int) := by omega
  rw [hres]
  have hb1 := hb.1
  clear hres hfind hmod hmem hdrop hprev ht htid hb hwin hrec hcur
  rcases nil_or_append_singleton ops with hnil | ⟨init, last, hcat⟩
  · rw [hnil] at hkn
    simp only [List.length_nil, Nat.cast_zero] at hkn
    omega
  · subst hcat
    have hlast : (k - 1).toNat = init.length := by
      simp only [List.length_append, List.length_singleton] at hkn
      omega
    rw [hlast] at hop
    simp only [List.getElem?_concat_length, Option.some.injEq] at hop
    rw [lastContent_concat, hop]

/-- Witness of C15: capacity 2, the calls `a`, `a`, `b`; record 3 is modified and
`reconstructVersion(3)` is `b`. -/
theorem reconstructVersion_round_trip_witness :
    ∃ op, [("a".toList, ([] : Str)), ("a".toList, []), ("b".toList, [])][((3 : Int) - 1).toNat]? =
        some op ∧
      reconstructVersion (runAdds ⟨[], [], 0, 1, 2⟩
        [("a".toList, []), ("a".toList, []), ("b".toList, [])]) 3 = some op.1 :=
  (reconstructVersion_round_trip 2 [] ⟨[], [], 0, 1, 2⟩
    [("a".toList, []), ("a".toList, []), ("b".toList, [])] 3
    ⟨3, computeDelta "a".toList "b".toList, []⟩ rfl (by decide) (by decide) (by decide)
    (by decide) ⟨⟨3, computeDelta "a".toList "b".toList, []⟩, by decide, by decide, by decide⟩).1

/-! The buffer of `computeDelta`. -/

theorem computeDelta_length_of_ne (old new : Str) (h : old ≠ new) :
    (computeDelta old new).length = old.length + new.length + 14 := by
  rw [computeDelta_of_ne old new h, modified_literal]
  have harrow : " -> ".toList = [' ', '-', '>', ' '] := rfl
  rw [harrow]
  simp only [List.length_append, List.length_cons, List.length_nil]
  omega

theorem computeDeltaChecked_eq_none_iff (old new : Str) :
    computeDeltaChecked old new = none ↔ old ≠ new ∧ 1010 ≤ old.length + new.length := by
  unfold computeDeltaChecked MAX_CONTENT
  by_cases h : old = new
  · have hlen : (computeDelta old new).length = 9 := by
      rw [computeDelta_of_eq old new h]
      rfl
    rw [hlen]
    simp [h]
  · rw [computeDelta_length_of_ne old new h]
    constructor
    · intro hnone
      refine ⟨h, ?_⟩
      by_contra hlt
      rw [if_pos (by omega)] at hnone
      cases hnone
    · intro hge
      rw [if_neg (by omega)]

theorem computeDeltaChecked_of_fits (old new : Str) (h : old.length + new.length < 1010) :
    computeDeltaChecked old new = some (computeDelta old new) := by
  cases hc : computeDeltaChecked old new with
  | none =>
    have := ((computeDeltaChecked_eq_none_iff old new).mp hc).2
    omega
  | some t =>
    unfold computeDeltaChecked at hc
    split at hc
    · exact hc.symm ▸ rfl
    · cases hc

/-- C8 (evaluation at the failing input): two contents of 600 characters each
fit the `MAX_CONTENT` bytes of the input buffers of the menu, they differ, and
the text `MODIFIED: ... -> ...` that `computeDelta` formats for them takes 1215
bytes with its terminator, more than the `MAX_CONTENT` = 1024 bytes of the
block it is written to: `sprintf` runs past the end of the block. -/
theorem computeDelta_overflows_buffer :
    (List.replicate 600 'a').length + 1 ≤ MAX_CONTENT ∧
    (List.replicate 600 'b').length + 1 ≤ MAX_CONTENT ∧
    List.replicate 600 'a' ≠ List.replicate 600 'b' ∧
    (computeDelta (List.replicate 600 'a') (List.replicate 600 'b')).length + 1 = 1215 ∧
    MAX_CONTENT < 1215 ∧
    computeDeltaChecked (List.replicate 600 'a') (List.replicate 600 'b') = none := by
  have hne : List.replicate 600 'a' ≠ List.replicate 600 'b' := by
    intro h
    have h2 := congrArg List.head? h
    simp at h2
  have hmax : MAX_CONTENT = 1024 := rfl
  refine ⟨?_, ?_, hne, ?_, ?_, ?_⟩
  · rw [List.length_replicate, hmax]
    omega
  · rw [List.length_replicate, hmax]
    omega
  · rw [computeDelta_length_of_ne _ _ hne, List.length_replicate, List.length_replicate]
  · rw [hmax]
    omega
  · rw [computeDeltaChecked_eq_none_iff, List.length_replicate, List.length_replicate]
    exact ⟨hne, by omega⟩

/-! The read operations on memory. -/

theorem chain_frame (m m2 : Memory) (p : Option Nat) (ns : List VersionNode)
    (h : Chain m p ns)
    (hf : ∀ a vid d l nx pv, m a = some (Cell.node vid d l nx pv) →
      m2 a = some (Cell.node vid d l nx pv)) : Chain m2 p ns := by
  induction ns generalizing p with
  | nil =>
    cases p with
    | none => trivial
    | some q => exact h
  | cons n rest ih =>
    cases p with
    | none => exact h
    | some q =>
      obtain ⟨next, prev, hq, hrest⟩ := h
      exact ⟨next, prev, hf q _ _ _ _ _ hq, ih next hrest⟩

theorem findVersionLoopMem_chain (m : Memory) (id : Int) (ns : List VersionNode)
    (p : Option Nat) (fuel : Nat) (h : Chain m p ns) (hfuel : ns.length < fuel) :
    ∃ r, findVersionLoopMem m id fuel p = some r ∧ nodeAt m r = findVersionLoop id ns ∧
      (r.isSome = true → (findVersionLoop id ns).isSome = true) := by
  induction ns generalizing p fuel with
  | nil =>
    cases p with
    | some q => exact False.elim h
    | none =>
      cases fuel with
      | zero => omega
      | succ f => exact ⟨none, rfl, rfl, fun hs => by cases hs⟩
  | cons n rest ih =>
    cases p with
    | none => exact False.elim h
    | some q =>
      obtain ⟨next, prev, hq, hrest⟩ := h
      cases fuel with
      | zero => omega
      | succ f =>
        have hf : rest.length < f := by simpa using hfuel
        by_cases hid : n.version_id = id
        · refine ⟨some q, ?_, ?_, fun _ => ?_⟩
          · simp only [findVersionLoopMem, hq, if_pos hid]
          · simp only [nodeAt, hq, findVersionLoop, if_pos hid]
          · simp only [findVersionLoop, if_pos hid, Option.isSome_some]
        · obtain ⟨r, hr, hnode, hsome⟩ := ih next f hrest hf
          refine ⟨r, ?_, ?_, ?_⟩
          · simp only [findVersionLoopMem, hq, if_neg hid, hr]
          · simp only [findVersionLoop, if_neg hid, hnode]
          · simp only [findVersionLoop, if_neg hid]
            exact hsome

theorem strchr_length (s : Str) (c : Char) (t : Str) (h : strchr s c = some t) :
    t.length ≤ s.length := by
  induction s with
  | nil => cases h
  | cons x rest ih =>
    unfold strchr at h
    by_cases hx : x = c
    · rw [if_pos hx] at h
      cases h
      exact le_refl _
    · rw [if_neg hx] at h
      have := ih h
      simp only [List.length_cons]
      omega

theorem applyDeltaMem_spec (m : Memory) (buf : Nat) (delta content : Str)
    (hbuf : m buf = some (Cell.buffer MAX_CONTENT content))
    (hfit : delta.length < MAX_CONTENT) :
    ∃ m1, applyDeltaMem m buf delta = some m1 ∧
      m1 buf = some (Cell.buffer MAX_CONTENT (applyDelta delta content)) ∧
      ∀ a, a ≠ buf → m1 a = m a := by
  unfold applyDeltaMem applyDelta
  cases hs : strstr delta MODIFIED with
  | none => exact ⟨m, rfl, hbuf, fun _ _ => rfl⟩
  | some x =>
    cases hc : strchr delta '>' with
    | none => exact ⟨m, rfl, hbuf, fun _ _ => rfl⟩
    | some start =>
      have hlen := strchr_length delta '>' start hc
      have hdrop : (start.drop 2).length + 1 ≤ MAX_CONTENT := by
        rw [List.length_drop]
        omega
      refine ⟨m.write buf (some (Cell.buffer MAX_CONTENT (start.drop 2))), ?_, ?_, ?_⟩
      · simp only [strcpyMem, hbuf, if_pos hdrop]
      · simp only [Memory.write, if_pos]
      · intro a ha
        simp only [Memory.write, if_neg ha]

theorem reconstructLoopMem_chain (id : Int) (buf : Nat) (ns : List VersionNode) (m : Memory)
    (p : Option Nat) (fuel : Nat) (content : Str) (h : Chain m p ns)
    (hbuf : m buf = some (Cell.buffer MAX_CONTENT content))
    (hfit : ∀ n ∈ ns, n.delta.length < MAX_CONTENT) (hfuel : ns.length < fuel) :
    ∃ m2, reconstructLoopMem id buf fuel m p = some m2 ∧
      m2 buf = some (Cell.buffer MAX_CONTENT (reconstructLoop id ns content)) ∧
      ∀ a, a ≠ buf → m2 a = m a := by
  induction ns generalizing m p fuel content with
  | nil =>
    cases p with
    | some q => exact False.elim h
    | none =>
      cases fuel with
      | zero => omega
      | succ f => exact ⟨m, rfl, hbuf, fun _ _ => rfl⟩
  | cons n rest ih =>
    cases p with
    | none => exact False.elim h
    | some q =>
      obtain ⟨next, prev, hq, hrest⟩ := h
      cases fuel with
      | zero => omega
      | succ f =>
        have hf : rest.length < f := by simpa using hfuel
        have hqb : q ≠ buf := by
          intro hqb
          rw [hqb, hbuf] at hq
          cases hq
        by_cases hle : n.version_id ≤ id
        · obtain ⟨m1, hm1, hm1buf, hm1frame⟩ := applyDeltaMem_spec m buf n.delta content hbuf
            (hfit n (List.mem_cons_self _ _))
          have hq1 : m1 q = some (Cell.node n.version_id n.delta n.change_log next prev) := by
            rw [hm1frame q hqb, hq]
          by_cases hid : n.version_id = id
          · refine ⟨m1, ?_, ?_, fun a ha => hm1frame a ha⟩
            · simp only [reconstructLoopMem, hq, if_pos hle, hm1, hq1, if_pos hid]
            · rw [reconstructLoop_cons_eq id n rest content hid]
              exact hm1buf
          · have hlt : n.version_id < id := lt_of_le_of_ne hle hid
            have hchain1 : Chain m1 next rest := by
              apply chain_frame m m1 next rest hrest
              intro a vid d l nx pv ha
              have hab : a ≠ buf := by
                intro hab
                rw [hab, hbuf] at ha
                cases ha
              rw [hm1frame a hab, ha]
            obtain ⟨m2, hm2, hm2buf, hm2frame⟩ := ih m1 next f (applyDelta n.delta content)
              hchain1 hm1buf (fun k hk => hfit k (List.mem_cons_of_mem _ hk)) hf
            refine ⟨m2, ?_, ?_, fun a ha => ?_⟩
            · simp only [reconstructLoopMem, hq, if_pos hle, hm1, hq1, if_neg hid, hm2]
            · rw [reconstructLoop_cons_lt id n rest content hlt]
              exact hm2buf
            · rw [hm2frame a ha, hm1frame a ha]
        · refine ⟨m, ?_, ?_, fun _ _ => rfl⟩
          · simp only [reconstructLoopMem, hq, if_neg hle]
          · have : reconstructLoop id (n :: rest) content = content := by
              unfold reconstructLoop
              simp only [if_neg hle]
            rw [this]
            exact hbuf

theorem represents_frame (m m2 : Memory) (vcs : Nat) (v : VCS) (h : Represents m vcs v)
    (hf : ∀ a, m a ≠ none → m2 a = m a) : Represents m2 vcs v := by
  obtain ⟨head, tail, hstore, hchain⟩ := h
  refine ⟨head, tail, ?_, ?_⟩
  · rw [hf vcs (by rw [hstore]; exact Option.some_ne_none _), hstore]
  · apply chain_frame m m2 head v.nodes hchain
    intro a vid d l nx pv ha
    rw [hf a (by rw [ha]; exact Option.some_ne_none _), ha]

theorem reconstructVersionMem_spec (m : Memory) (fresh vcs : Nat) (v : VCS) (id : Int)
    (fuel : Nat) (hrep : Represents m vcs v) (hfresh : m fresh = none)
    (hfit : ∀ n ∈ v.nodes, n.delta.length < MAX_CONTENT) (hfuel : v.nodes.length < fuel) :
    ∃ r m2, reconstructVersionMem m fresh vcs id fuel = some (r, m2) ∧
      (∀ a, a ≠ fresh → m2 a = m a) ∧
      (r = none → m2 fresh = none) ∧
      (∀ q, r = some q → q = fresh) ∧
      r.isSome = (reconstructVersion v id).isSome ∧
      textAt m2 r = reconstructVersion v id := by
  obtain ⟨head, tail, hstore, hchain⟩ := hrep
  obtain ⟨r0, hr0, hnode, hsome⟩ := findVersionLoopMem_chain m id v.nodes head fuel hchain hfuel
  have hfind : findVersionNodeMem m vcs id fuel = some r0 := by
    simp only [findVersionNodeMem, hstore, hr0]
  cases r0 with
  | none =>
    have hnone : findVersionNode v id = none := by
      unfold findVersionNode
      rw [← hnode]
      rfl
    refine ⟨none, m, ?_, fun _ _ => rfl, fun _ => hfresh, fun q hq => (by cases hq), ?_, ?_⟩
    · simp only [reconstructVersionMem, hfind]
    · rw [reconstructVersion_eq_none v id hnone]
      rfl
    · rw [reconstructVersion_eq_none v id hnone]
      rfl
  | some q0 =>
    obtain ⟨found, hfound⟩ := Option.isSome_iff_exists.mp (hsome rfl)
    have hvf : vcs ≠ fresh := by
      intro hvf
      rw [hvf, hfresh] at hstore
      cases hstore
    -- the block of `malloc`, then `strcpy(reconstructed, "")`
    have hmax : ([] : Str).length + 1 ≤ MAX_CONTENT := by decide
    have hcopy : strcpyMem (m.write fresh (some (Cell.buffer MAX_CONTENT []))) fresh [] =
        some ((m.write fresh (some (Cell.buffer MAX_CONTENT []))).write fresh
          (some (Cell.buffer MAX_CONTENT []))) := by
      simp only [strcpyMem, Memory.write, if_pos, if_pos hmax]
    generalize hm1 : (m.write fresh (some (Cell.buffer MAX_CONTENT []))).write fresh
      (some (Cell.buffer MAX_CONTENT [])) = m1 at hcopy
    have hm1buf : m1 fresh = some (Cell.buffer MAX_CONTENT []) := by
      rw [← hm1]
      simp only [Memory.write, if_pos]
    have hm1frame : ∀ a, a ≠ fresh → m1 a = m a := by
      intro a ha
      rw [← hm1]
      simp only [Memory.write, if_neg ha]
    have hstore1 : m1 vcs = some (Cell.store head tail v.current_content v.version_count
        v.next_version_id v.max_versions) := by
      rw [hm1frame vcs hvf, hstore]
    have hchain1 : Chain m1 head v.nodes := by
      apply chain_frame m m1 head v.nodes hchain
      intro a vid d l nx pv ha
      have haf : a ≠ fresh := by
        intro haf
        rw [haf, hfresh] at ha
        cases ha
      rw [hm1frame a haf, ha]
    obtain ⟨m2, hm2, hm2buf, hm2frame⟩ := reconstructLoopMem_chain id fresh v.nodes m1 head fuel
      [] hchain1 hm1buf hfit hfuel
    have hrv : reconstructVersion v id = some (reconstructLoop id v.nodes []) := by
      unfold reconstructVersion findVersionNode
      rw [hfound]
    refine ⟨some fresh, m2, ?_, fun a ha => ?_, fun hr => (by cases hr),
      fun q hq => (Option.some.inj hq).symm, ?_, ?_⟩
    · simp only [reconstructVersionMem, hfind, hcopy, hstore1, hm2]
    · rw [hm2frame a ha, hm1frame a ha]
    · rw [hrv]
      rfl
    · rw [hrv]
      simp only [textAt, hm2buf]

theorem displayLogsLoopMem_chain (m : Memory) (ns : List VersionNode) (p : Option Nat)
    (fuel : Nat) (h : Chain m p ns) (hfuel : ns.length < fuel) :
    displayLogsLoopMem m fuel p =
      some (ns.map (fun temp => (temp.version_id, temp.change_log, temp.delta))) := by
  induction ns generalizing p fuel with
  | nil =>
    cases p with
    | some q => exact False.elim h
    | none =>
      cases fuel with
      | zero => omega
      | succ f => rfl
  | cons n rest ih =>
    cases p with
    | none => exact False.elim h
    | some q =>
      obtain ⟨next, prev, hq, hrest⟩ := h
      cases fuel with
      | zero => omega
      | succ f =>
        have hf : rest.length < f := by simpa using hfuel
        simp only [displayLogsLoopMem, hq, ih next f hrest hf, List.map_cons]

theorem textAt_some (m : Memory) (q : Nat) (text : Str) (h : textAt m (some q) = some text) :
    ∃ size, m q = some (Cell.buffer size text) := by
  have h2 : (match m q with
      | some (Cell.buffer _ t) => some t
      | _ => none) = some text := h
  cases hq : m q with
  | none => rw [hq] at h2; cases h2
  | some c =>
    rw [hq] at h2
    cases c with
    | node vid d l nx pv => cases h2
    | store hd tl cc vc nv mv => cases h2
    | buffer size t =>
      simp only [Option.some.injEq] at h2
      exact ⟨size, by rw [h2]⟩

theorem live_ne_of_none (m : Memory) (a p : Nat) (ha : m a ≠ none) (hp : m p = none) : a ≠ p := by
  intro hap
  rw [hap] at ha
  exact ha hp

/-- C14: when the memory holds a store (its struct and the chain of its nodes,
each delta shorter than `MAX_CONTENT`), `findVersionNode` returns the node that
the chain has for the id and writes nothing; `reconstructVersion` returns, every
block that was live before the call (the struct, every node) is what it was,
the memory still holds the same store, and the text returned is the one
computed from the chain; a second call with the same id, the first result not
yet freed, returns the same text, or `NULL` both times; `displayVersion` leaves
the memory as it found it, and `displayCurrentVersion` and `displayAllLogs` print
from the store and write nothing. -/
theorem reads_leave_store_unchanged (m : Memory) (vcs fresh fresh2 : Nat) (v : VCS) (id : Int)
    (fuel : Nat) (hrep : Represents m vcs v) (hfresh : m fresh = none)
    (hfresh2 : m fresh2 = none) (hne : fresh2 ≠ fresh)
    (hfit : ∀ n ∈ v.nodes, n.delta.length < MAX_CONTENT) (hfuel : v.nodes.length < fuel) :
    (∃ r, findVersionNodeMem m vcs id fuel = some r ∧ nodeAt m r = findVersionNode v id) ∧
    (∃ r1 m1, reconstructVersionMem m fresh vcs id fuel = some (r1, m1) ∧
      (∀ a, m a ≠ none → m1 a = m a) ∧
      Represents m1 vcs v ∧
      textAt m1 r1 = reconstructVersion v id ∧
      ∃ r2 m2, reconstructVersionMem m1 fresh2 vcs id fuel = some (r2, m2) ∧
        (∀ a, m a ≠ none → m2 a = m a) ∧
        Represents m2 vcs v ∧
        r2.isSome = r1.isSome ∧
        textAt m2 r2 = textAt m1 r1) ∧
    (∃ out m3, displayVersionMem m fresh vcs id fuel = some (out, m3) ∧
      out = displayVersion v id ∧ ∀ a, m3 a = m a) ∧
    displayCurrentVersionMem m vcs = some (displayCurrentVersion v) ∧
    displayAllLogsMem m vcs fuel = some (displayAllLogs v) := by
  obtain ⟨r1, m1, hcall1, hframe1, hnone1, hptr1, hsome1, htext1⟩ :=
    reconstructVersionMem_spec m fresh vcs v id fuel hrep hfresh hfit hfuel
  have hlive1 : ∀ a, m a ≠ none → m1 a = m a :=
    fun a ha => hframe1 a (live_ne_of_none m a fresh ha hfresh)
  have hrep1 : Represents m1 vcs v := represents_frame m m1 vcs v hrep hlive1
  have hfresh21 : m1 fresh2 = none := by rw [hframe1 fresh2 hne, hfresh2]
  obtain ⟨r2, m2, hcall2, hframe2, _, _, hsome2, htext2⟩ :=
    reconstructVersionMem_spec m1 fresh2 vcs v id fuel hrep1 hfresh21 hfit hfuel
  have hlive2 : ∀ a, m a ≠ none → m2 a = m a := by
    intro a ha
    rw [hframe2 a (live_ne_of_none m a fresh2 ha hfresh2), hlive1 a ha]
  have hrep2 : Represents m2 vcs v := represents_frame m m2 vcs v hrep hlive2
  obtain ⟨head, tail, hstore, hchain⟩ := hrep
  refine ⟨?_, ⟨r1, m1, hcall1, hlive1, hrep1, htext1, r2, m2, hcall2, hlive2, hrep2, ?_, ?_⟩,
    ?_, ?_, ?_⟩
  · obtain ⟨r, hr, hnode, _⟩ := findVersionLoopMem_chain m id v.nodes head fuel hchain hfuel
    exact ⟨r, by simp only [findVersionNodeMem, hstore, hr], hnode⟩
  · rw [hsome2, hsome1]
  · rw [htext2, htext1]
  · cases r1 with
    | none =>
      have hrv : reconstructVersion v id = none := by
        rw [← htext1]
        rfl
      refine ⟨Printed.notFound id, m1, ?_, ?_, fun a => ?_⟩
      · simp only [displayVersionMem, hcall1]
      · simp only [displayVersion, hrv]
      · by_cases ha : a = fresh
        · rw [ha, hnone1 rfl, hfresh]
        · exact hframe1 a ha
    | some q =>
      have hq : q = fresh := hptr1 q rfl
      subst hq
      obtain ⟨text, htx⟩ := Option.isSome_iff_exists.mp (hsome1 ▸ rfl :
        (reconstructVersion v id).isSome = true)
      have htq : textAt m1 (some q) = some text := by rw [htext1, htx]
      obtain ⟨size, hbuf⟩ := textAt_some m1 q text htq
      refine ⟨Printed.versionContent id text, m1.write q none, ?_, ?_, fun a => ?_⟩
      · simp only [displayVersionMem, hcall1, hbuf]
      · simp only [displayVersion, htx]
      · by_cases ha : a = q
        · rw [ha, hfresh]
          simp only [Memory.write, if_pos]
        · simp only [Memory.write, if_neg ha]
          exact hframe1 a ha
  · simp only [displayCurrentVersionMem, hstore, displayCurrentVersion]
  · simp only [displayAllLogsMem, hstore, displayAllLogs,
      displayLogsLoopMem_chain m v.nodes head fuel hchain hfuel]
    split <;> rfl

/-- Witness of C14: the memory that holds `sampleStore`, id 1, the blocks 2 and
3 for the two results. -/
theorem reads_leave_store_unchanged_witness :
    ∃ r1 m1, reconstructVersionMem sampleMemory 2 0 1 2 = some (r1, m1) ∧
      (∀ a, sampleMemory a ≠ none → m1 a = sampleMemory a) ∧
      Represents m1 0 sampleStore ∧
      textAt m1 r1 = reconstructVersion sampleStore 1 ∧
      ∃ r2 m2, reconstructVersionMem m1 3 0 1 2 = some (r2, m2) ∧
        (∀ a, sampleMemory a ≠ none → m2 a = sampleMemory a) ∧
        Represents m2 0 sampleStore ∧
        r2.isSome = r1.isSome ∧
        textAt m2 r2 = textAt m1 r1 :=
  (reads_leave_store_unchanged sampleMemory 0 2 3 sampleStore 1 2
    ⟨some 1, some 1, rfl, ⟨none, none, rfl, trivial⟩⟩ rfl rfl (by decide) (by decide)
    (by decide)).2.1

end VCSModel
